import Mathlib

/-!
# An in-process cache with LRU, LFU and time-based eviction

A shallow embedding of the Go packages `cache/internal/base`, `cache/internal/lru`,
`cache/internal/lfu`, `cache/internal/timebased` and `cache`, followed by theorems
about them.

Conventions of the embedding.

* A Go `map[string]V` is an association list `GoMap V`.  The order of the list is the
  order in which a `for ... range` loop visits the map; Go leaves that order open, and a
  statement quantified over every `GoMap` covers every order.  `lfu.runIn` runs a history
  of the LFU cache with the order of every visit given, so that a statement over every
  valid `sched` covers every execution; `lfu.run` is the one that follows the lists.
* `int`, `CacheStrategy`, `time.Duration` and `time.Time` are `Int` (instants and
  durations count nanoseconds); the frequency counters of the LFU cache wrap at 64 bits.
* `time.Now()` is an explicit argument of the method that reads the clock.
* `(value, ok)` results are `Option V`.
* A method whose locking is one acquire paired with one deferred release is embedded as
  its critical section: run sequentially it finds the mutex free and leaves it free.
  `TimeBasedCache.Get` releases and re-acquires in the middle of its body, so it is
  embedded together with its lock operations and can fail.  `LRUCache.GetLocked` is
  `LRUCache.Get` together with its lock operations.
* The sweeper goroutine is embedded as one turn of its loop, `cleanupExpiredItems`.
-/

/-- A Go `map[string]V` as an association list; the list order is the iteration order. -/
abbrev GoMap (V : Type) := List (String × V)

namespace GoMap

variable {V : Type}

/-- Map lookup `v, ok := m[k]`. -/
def get : GoMap V → String → Option V
  | [], _ => none
  | (k', v) :: r, k => if k' = k then some v else get r k

/-- Map assignment `m[k] = v`. -/
def set : GoMap V → String → V → GoMap V
  | [], k, v => [(k, v)]
  | (k', v') :: r, k, v => if k' = k then (k, v) :: r else (k', v') :: set r k v

/-- Builtin `delete(m, k)`. -/
def delete : GoMap V → String → GoMap V
  | [], _ => []
  | (k', v) :: r, k => if k' = k then delete r k else (k', v) :: delete r k

/-- Builtin `len(m)`. -/
def len (m : GoMap V) : Int := m.length

/-- The keys of the map, in iteration order. -/
def keys (m : GoMap V) : List String := m.map Prod.fst

end GoMap

namespace sync

/-- Ways in which a lock or channel operation ends the program. -/
inductive Fault where
  /-- Runtime message `fatal error: sync: RUnlock of unlocked RWMutex`. -/
  | rUnlockOfUnlocked
  /-- Runtime message `fatal error: sync: Unlock of unlocked RWMutex`. -/
  | unlockOfUnlocked
  /-- An acquire that the calling goroutine itself keeps from ever succeeding. -/
  | deadlock
  /-- Runtime message `panic: close of closed channel`. -/
  | closeOfClosed
  deriving DecidableEq

/-- State of a `sync.RWMutex`: the number of read holds and whether it is write-held. -/
structure RWMutex where
  readers : Nat
  writer : Bool
  deriving DecidableEq

namespace RWMutex

/-- The zero value: a free mutex. -/
def free : RWMutex := { readers := 0, writer := false }

/-- Method `RLock`. -/
def RLock (m : RWMutex) : Except Fault RWMutex :=
  if m.writer then .error .deadlock else .ok { m with readers := m.readers + 1 }

/-- Method `RUnlock`: a run-time error when the mutex is not locked for reading. -/
def RUnlock (m : RWMutex) : Except Fault RWMutex :=
  if m.readers = 0 then .error .rUnlockOfUnlocked else .ok { m with readers := m.readers - 1 }

/-- Method `Lock`. -/
def Lock (m : RWMutex) : Except Fault RWMutex :=
  if m.writer ∨ m.readers ≠ 0 then .error .deadlock else .ok { m with writer := true }

/-- Method `Unlock`: a run-time error when the mutex is not locked for writing. -/
def Unlock (m : RWMutex) : Except Fault RWMutex :=
  if m.writer then .ok { m with writer := false } else .error .unlockOfUnlocked

end RWMutex

/-- State of a `sync.Once`. -/
structure Once where
  done : Bool
  deriving DecidableEq

end sync

/-- State of a `chan struct{}` on which nothing is ever sent: open or closed. -/
structure Chan where
  closed : Bool
  deriving DecidableEq

/-- Builtin `close(ch)`: a panic when the channel is already closed. -/
def Chan.close (ch : Chan) : Except sync.Fault Chan :=
  if ch.closed then .error .closeOfClosed else .ok { closed := true }

namespace base

variable {V : Type}

/-- Struct `BaseCache`: the storage map, the capacity and the lock. -/
structure BaseCache (V : Type) where
  Data : GoMap V
  Capacity : Int
  Mutex : sync.RWMutex

/-- Constructor `NewBaseCache`. -/
def NewBaseCache (capacity : Int) : BaseCache V :=
  { Data := [], Capacity := capacity, Mutex := sync.RWMutex.free }

namespace BaseCache

/-- Method `BaseCache.Set`. -/
def Set (c : BaseCache V) (key : String) (value : V) : BaseCache V :=
  { c with Data := c.Data.set key value }

/-- Method `BaseCache.Get`. -/
def Get (c : BaseCache V) (key : String) : Option V :=
  c.Data.get key

/-- Method `BaseCache.Delete`. -/
def Delete (c : BaseCache V) (key : String) : BaseCache V :=
  { c with Data := c.Data.delete key }

/-- Method `BaseCache.Clear`. -/
def Clear (c : BaseCache V) : BaseCache V :=
  { c with Data := [] }

/-- Method `BaseCache.Len`. -/
def Len (c : BaseCache V) : Int :=
  c.Data.len

end BaseCache

end base

namespace lru

variable {V : Type}

/-- Struct `LRUCache`: the embedded base cache and the recency list, front first. -/
structure LRUCache (V : Type) where
  BaseCache : base.BaseCache V
  order : List String

/-- Constructor `NewLRUCache`. -/
def NewLRUCache (capacity : Int) : LRUCache V :=
  { BaseCache := base.NewBaseCache capacity, order := [] }

namespace LRUCache

/-- Method `updateOrder`: unlink the first element holding `key`, then push `key` to the front. -/
def updateOrder (c : LRUCache V) (key : String) : LRUCache V :=
  { c with order := key :: c.order.erase key }

/-- Method `evict`: unlink the back of the list and delete its key from the storage map. -/
def evict (c : LRUCache V) : LRUCache V :=
  match c.order.getLast? with
  | none => c
  | some oldest =>
    { BaseCache := { c.BaseCache with Data := c.BaseCache.Data.delete oldest },
      order := c.order.dropLast }

/-- Method `LRUCache.Set`. -/
def Set (c : LRUCache V) (key : String) (value : V) : LRUCache V :=
  if (c.BaseCache.Data.get key).isSome then
    let c1 := c.updateOrder key
    { c1 with BaseCache := { c1.BaseCache with Data := c1.BaseCache.Data.set key value } }
  else
    let c1 := if c.BaseCache.Data.len ≥ c.BaseCache.Capacity then c.evict else c
    { BaseCache := { c1.BaseCache with Data := c1.BaseCache.Data.set key value },
      order := key :: c1.order }

/-- Method `LRUCache.Get`: the result and the cache afterwards. -/
def Get (c : LRUCache V) (key : String) : Option V × LRUCache V :=
  match c.BaseCache.Get key with
  | some value => (some value, c.updateOrder key)
  | none => (none, c)

/-- Method `LRUCache.Get` with its lock operations and those of the `BaseCache.Get` it calls.
Besides the result and the cache afterwards it gives the state of the mutex at the moment
`updateOrder` changes the recency list, and `none` when the list is not changed. -/
def GetLocked (c : LRUCache V) (key : String) :
    Except sync.Fault (Option V × LRUCache V × Option sync.RWMutex) := do
  let m1 ← c.BaseCache.Mutex.RLock
  let m2 ← m1.RLock
  let found := c.BaseCache.Data.get key
  let m3 ← m2.RUnlock
  match found with
  | some value =>
    let c1 := c.updateOrder key
    let m4 ← m3.RUnlock
    pure (some value, { c1 with BaseCache := { c1.BaseCache with Mutex := m4 } }, some m3)
  | none =>
    let m4 ← m3.RUnlock
    pure (none, { c with BaseCache := { c.BaseCache with Mutex := m4 } }, none)

/-- Method `Delete`, promoted from the embedded `BaseCache`. -/
def Delete (c : LRUCache V) (key : String) : LRUCache V :=
  { c with BaseCache := c.BaseCache.Delete key }

/-- Method `Clear`, promoted from the embedded `BaseCache`. -/
def Clear (c : LRUCache V) : LRUCache V :=
  { c with BaseCache := c.BaseCache.Clear }

/-- Method `Len`, promoted from the embedded `BaseCache`. -/
def Len (c : LRUCache V) : Int :=
  c.BaseCache.Len

end LRUCache

end lru

namespace lfu

variable {V : Type}

/-- Constant `math.MaxInt` of a 64-bit platform. -/
def MaxInt : Int := 2 ^ 63 - 1

/-- Reduction of an integer to the range of a 64-bit `int`. -/
def wrapInt (x : Int) : Int := (x + 2 ^ 63) % 2 ^ 64 - 2 ^ 63

/-- Struct `LFUCache`: the embedded base cache and the frequency map. -/
structure LFUCache (V : Type) where
  BaseCache : base.BaseCache V
  freq : GoMap Int

/-- Constructor `NewLFUCache`. -/
def NewLFUCache (capacity : Int) : LFUCache V :=
  { BaseCache := base.NewBaseCache capacity, freq := [] }

/-- Statement `freq[key]++` on a frequency map: a missing key reads as 0. -/
def incr (freq : GoMap Int) (key : String) : GoMap Int :=
  freq.set key (wrapInt ((freq.get key).getD 0 + 1))

/-- One iteration of the loop of `evict` on the pair `(minFreq, evictKey)`. -/
def evictStep (acc : Int × String) (e : String × Int) : Int × String :=
  if e.2 < acc.1 then (e.2, e.1) else acc

/-- The pair `(minFreq, evictKey)` when the loop of `evict` is over. -/
def evictScan (freq : GoMap Int) : Int × String :=
  freq.foldl evictStep (MaxInt, "")

namespace LFUCache

/-- Method `evict`. -/
def evict (c : LFUCache V) : LFUCache V :=
  let evictKey := (evictScan c.freq).2
  if evictKey ≠ "" then
    { BaseCache := { c.BaseCache with Data := c.BaseCache.Data.delete evictKey },
      freq := c.freq.delete evictKey }
  else c

/-- Method `LFUCache.Set`. -/
def Set (c : LFUCache V) (key : String) (value : V) : LFUCache V :=
  if (c.BaseCache.Data.get key).isSome then
    { BaseCache := { c.BaseCache with Data := c.BaseCache.Data.set key value },
      freq := incr c.freq key }
  else
    let c1 := if c.BaseCache.Data.len ≥ c.BaseCache.Capacity then c.evict else c
    { BaseCache := { c1.BaseCache with Data := c1.BaseCache.Data.set key value },
      freq := c1.freq.set key 1 }

/-- Method `LFUCache.Get`: the result and the cache afterwards. -/
def Get (c : LFUCache V) (key : String) : Option V × LFUCache V :=
  match c.BaseCache.Get key with
  | some value => (some value, { c with freq := incr c.freq key })
  | none => (none, c)

/-- Method `Delete`, promoted from the embedded `BaseCache`. -/
def Delete (c : LFUCache V) (key : String) : LFUCache V :=
  { c with BaseCache := c.BaseCache.Delete key }

/-- Method `Clear`, promoted from the embedded `BaseCache`. -/
def Clear (c : LFUCache V) : LFUCache V :=
  { c with BaseCache := c.BaseCache.Clear }

/-- Method `Len`, promoted from the embedded `BaseCache`. -/
def Len (c : LFUCache V) : Int :=
  c.BaseCache.Len

end LFUCache

end lfu

namespace timebased

variable {V : Type}

/-- Struct `item`: the value and the instant at which it expires. -/
structure item (V : Type) where
  value : V
  expiration : Int

/-- Struct `TimeBasedCache`. -/
structure TimeBasedCache (V : Type) where
  BaseCache : base.BaseCache V
  expirationDuration : Int
  ttlMap : GoMap (item V)
  stopChan : Chan
  stopOnce : sync.Once

/-- Constructor `NewTimeBasedCache`; the sweeper it starts runs beside the calls. -/
def NewTimeBasedCache (capacity : Int) (expirationDuration : Int) : TimeBasedCache V :=
  { BaseCache := base.NewBaseCache capacity,
    expirationDuration := expirationDuration,
    ttlMap := [],
    stopChan := { closed := false },
    stopOnce := { done := false } }

/-- One iteration of the loop of `evict` on the pair `(oldestKey, oldestExpiration)`. -/
def evictStep (acc : String × Int) (e : String × item V) : String × Int :=
  if e.2.expiration < acc.2 then (e.1, e.2.expiration) else acc

/-- The pair `(oldestKey, oldestExpiration)` when the loop of `evict` is over; `bound` is the
initial `oldestExpiration`. -/
def evictScan (ttlMap : GoMap (item V)) (bound : Int) : String × Int :=
  ttlMap.foldl evictStep ("", bound)

namespace TimeBasedCache

/-- The cache with its mutex in state `m`. -/
def withMutex (c : TimeBasedCache V) (m : sync.RWMutex) : TimeBasedCache V :=
  { c with BaseCache := { c.BaseCache with Mutex := m } }

/-- The two `delete` statements that remove `key` from the storage map and the expiry index. -/
def remove (c : TimeBasedCache V) (key : String) : TimeBasedCache V :=
  { c with
    BaseCache := { c.BaseCache with Data := c.BaseCache.Data.delete key },
    ttlMap := c.ttlMap.delete key }

/-- Method `evict`, reading the clock as `now`. -/
def evict (c : TimeBasedCache V) (now : Int) : TimeBasedCache V :=
  let oldestKey := (evictScan c.ttlMap (now + c.expirationDuration)).1
  if oldestKey ≠ "" then c.remove oldestKey else c

/-- Method `TimeBasedCache.Set`.  The clock is read as `evictNow` inside `evict`, when `evict`
is called, and as `now` for the expiration of the entry. -/
def Set (c : TimeBasedCache V) (evictNow now : Int) (key : String) (value : V) :
    TimeBasedCache V :=
  let c1 := if c.BaseCache.Data.len ≥ c.BaseCache.Capacity then c.evict evictNow else c
  let expiration := now + c1.expirationDuration
  { c1 with
    BaseCache := { c1.BaseCache with Data := c1.BaseCache.Data.set key value },
    ttlMap := c1.ttlMap.set key { value := value, expiration := expiration } }

/-- Method `TimeBasedCache.Get`, reading the clock as `now`, with its lock operations.  The
deferred calls run when the body is over, the last one registered first. -/
def Get (c : TimeBasedCache V) (now : Int) (key : String) :
    Except sync.Fault (Option V × TimeBasedCache V) := do
  let m1 ← c.BaseCache.Mutex.RLock
  match c.ttlMap.get key with
  | some it =>
    if now < it.expiration then
      let m2 ← m1.RUnlock
      pure (some it.value, c.withMutex m2)
    else
      let m2 ← m1.RUnlock
      let m3 ← m2.Lock
      let c1 := c.remove key
      let m4 ← m3.Unlock
      let m5 ← m4.RUnlock
      pure (none, c1.withMutex m5)
  | none =>
    let m2 ← m1.RUnlock
    pure (none, c.withMutex m2)

/-- Method `Delete`, promoted from the embedded `BaseCache`. -/
def Delete (c : TimeBasedCache V) (key : String) : TimeBasedCache V :=
  { c with BaseCache := c.BaseCache.Delete key }

/-- Method `Clear`, promoted from the embedded `BaseCache`. -/
def Clear (c : TimeBasedCache V) : TimeBasedCache V :=
  { c with BaseCache := c.BaseCache.Clear }

/-- Method `Len`, promoted from the embedded `BaseCache`. -/
def Len (c : TimeBasedCache V) : Int :=
  c.BaseCache.Len

/-- Method `cleanupExpiredItems`, one turn of its loop on a tick of the ticker: the sweep of the
expiry index, reading the clock as `now`. -/
def cleanupExpiredItems (c : TimeBasedCache V) (now : Int) : TimeBasedCache V :=
  c.ttlMap.foldl (fun acc e => if e.2.expiration < now then acc.remove e.1 else acc) c

/-- Method `StopCleanup`: `stopOnce.Do` runs `close(c.stopChan)` on its first call only. -/
def StopCleanup (c : TimeBasedCache V) : Except sync.Fault (TimeBasedCache V) :=
  if c.stopOnce.done then .ok c
  else do
    let ch ← c.stopChan.close
    pure { c with stopChan := ch, stopOnce := { done := true } }

end TimeBasedCache

end timebased

namespace cache

variable {V : Type}

/-- Constant `LRU` of type `CacheStrategy`. -/
def LRU : Int := 0

/-- Constant `LFU` of type `CacheStrategy`. -/
def LFU : Int := 1

/-- Constant `TimeBased` of type `CacheStrategy`. -/
def TimeBased : Int := 2

/-- A non-nil value of interface `Cache`: one of the three implementations. -/
inductive Cache (V : Type) where
  | lru (c : lru.LRUCache V)
  | lfu (c : lfu.LFUCache V)
  | timeBased (c : timebased.TimeBasedCache V)

/-- Field `Capacity` of the cache behind the interface value. -/
def Cache.Capacity : Cache V → Int
  | .lru c => c.BaseCache.Capacity
  | .lfu c => c.BaseCache.Capacity
  | .timeBased c => c.BaseCache.Capacity

/-- Function `New`: `.error msg` stands for `(nil, err)` and `.ok c` for `(c, nil)`. -/
def New (strategy : Int) (capacity : Int) (expirationDuration : Int) : Except String (Cache V) :=
  if strategy = LRU then
    .ok (.lru (lru.NewLRUCache capacity))
  else if strategy = LFU then
    .ok (.lfu (lfu.NewLFUCache capacity))
  else if strategy = TimeBased then
    if expirationDuration ≤ 0 then
      .error "expiration duration must be positive for TimeBased strategy"
    else
      .ok (.timeBased (timebased.NewTimeBasedCache capacity expirationDuration))
  else
    .error ("unknown cache strategy: " ++ toString strategy)

end cache

/-- A call of `Set` or of `Get` on a cache. -/
inductive Call (V : Type) where
  | set (key : String) (value : V)
  | get (key : String)

namespace lru

variable {V : Type}

/-- The cache after one call. -/
def step (c : LRUCache V) : Call V → LRUCache V
  | .set key value => c.Set key value
  | .get key => (c.Get key).2

/-- The cache after the calls `ops`, made in this order on `NewLRUCache capacity`. -/
def run (capacity : Int) (ops : List (Call V)) : LRUCache V :=
  ops.foldl step (NewLRUCache capacity)

/-- Whether the call `op`, made on cache `c`, touches `key`: a Set of `key`, or a Get of `key`
that hits. -/
def touches (c : LRUCache V) (op : Call V) (key : String) : Bool :=
  match op with
  | .set k _ => k == key
  | .get k => k == key && (c.BaseCache.Get k).isSome

/-- The position of the most recent touch of `key`, carried along the calls: `c` is the cache
before the next call, `n` the number of calls made so far, `acc` the position found so far. -/
def lastTouchFrom (c : LRUCache V) (n : Nat) (acc : Nat) (key : String) : List (Call V) → Nat
  | [] => acc
  | op :: rest =>
    lastTouchFrom (step c op) (n + 1) (if touches c op key then n + 1 else acc) key rest

/-- The position, counted from 1, of the most recent call among `ops` that touched `key`,
and 0 when no call did. -/
def lastTouch (capacity : Int) (ops : List (Call V)) (key : String) : Nat :=
  lastTouchFrom (NewLRUCache capacity) 0 0 key ops

/-- What every LRU cache reached by Set and Get calls satisfies; `s` gives each key the
position of its most recent touch. -/
structure Inv (s : String → Nat) (c : LRUCache V) : Prop where
  nodupOrder : c.order.Nodup
  nodupKeys : c.BaseCache.Data.keys.Nodup
  mem : ∀ k, k ∈ c.order ↔ k ∈ c.BaseCache.Data.keys
  sorted : c.order.Pairwise (fun a b => s b < s a)
  len : c.BaseCache.Data.len ≤ c.BaseCache.Capacity
  cap : 1 ≤ c.BaseCache.Capacity

/-- The recency list and the storage map hold the same keys, each once. -/
structure Sync (c : LRUCache V) : Prop where
  nodupOrder : c.order.Nodup
  nodupKeys : c.BaseCache.Data.keys.Nodup
  mem : ∀ k, k ∈ c.order ↔ k ∈ c.BaseCache.Data.keys

end lru

namespace lfu

variable {V : Type}

/-- The cache after one call. -/
def step (c : LFUCache V) : Call V → LFUCache V
  | .set key value => c.Set key value
  | .get key => (c.Get key).2

/-- The cache after the calls `ops`, made in this order on `NewLFUCache capacity`, in the
execution in which every `range` loop visits the frequency map in the order of its list;
`runIn` gives the executions with the other orders. -/
def run (capacity : Int) (ops : List (Call V)) : LFUCache V :=
  ops.foldl step (NewLFUCache capacity)

/-- The cache after one call during which the `range` loop of `evict` visits the frequency map
as `seen`, a reordering of `c.freq`. -/
def stepIn (c : LFUCache V) (seen : GoMap Int) (op : Call V) : LFUCache V :=
  step { c with freq := seen } op

/-- The cache after the calls of `sched`, made in this order on `NewLFUCache capacity`; each
call comes with the frequency map in the order in which it is visited during that call. -/
def runIn (capacity : Int) (sched : List (GoMap Int × Call V)) : LFUCache V :=
  sched.foldl (fun c s => stepIn c s.1 s.2) (NewLFUCache capacity)

/-- Whether every call of `sched`, made from cache `c` on, visits a reordering of the frequency
map that the cache holds before that call. -/
def validFrom (c : LFUCache V) : List (GoMap Int × Call V) → Bool
  | [] => true
  | s :: rest => decide (s.1.Perm c.freq) && validFrom (stepIn c s.1 s.2) rest

/-- Whether `sched` is an execution from `NewLFUCache capacity`: every call visits a
reordering of the frequency map of its moment.  The orders are free, as in Go. -/
def valid (capacity : Int) (sched : List (GoMap Int × Call V)) : Bool :=
  validFrom (NewLFUCache capacity : LFUCache V) sched

/-- The number of touches of `key` since its insertion after the call `op` made on cache `c`,
`acc` being that number before the call: a Set that inserts `key` starts it at 0, a Set of the
stored `key` and a Get of `key` that hits add 1, every other call leaves it. -/
def touchesSinceStep (c : LFUCache V) (acc : Nat) (key : String) : Call V → Nat
  | .set k _ => if k = key then (if (c.BaseCache.Get key).isSome then acc + 1 else 0) else acc
  | .get k => if k = key ∧ (c.BaseCache.Get key).isSome then acc + 1 else acc

/-- The number of touches of `key` since its insertion, carried along the calls of an
execution: `c` is the cache before the next call and `acc` the number found so far. -/
def touchesSinceFrom (c : LFUCache V) (acc : Nat) (key : String) :
    List (GoMap Int × Call V) → Nat
  | [] => acc
  | s :: rest => touchesSinceFrom (stepIn c s.1 s.2) (touchesSinceStep c acc key s.2) key rest

/-- The number of calls of the execution `sched`, made on `NewLFUCache capacity`, that touched
`key` after the Set that last inserted it. -/
def touchesSince (capacity : Int) (sched : List (GoMap Int × Call V)) (key : String) : Nat :=
  touchesSinceFrom (NewLFUCache capacity : LFUCache V) 0 key sched

end lfu

/-! ## The storage map -/

namespace GoMap

variable {V : Type}

theorem get_set_self (m : GoMap V) (k : String) (v : V) : (m.set k v).get k = some v := by
  induction m with
  | nil => simp [set, get]
  | cons e r ih =>
    obtain ⟨k', v'⟩ := e
    by_cases h : k' = k
    · simp [set, get, h]
    · simp [set, get, h, ih]

theorem get_set_ne (m : GoMap V) {k k' : String} (h : k' ≠ k) (v : V) :
    (m.set k v).get k' = m.get k' := by
  induction m with
  | nil => simp [set, get, Ne.symm h]
  | cons e r ih =>
    obtain ⟨k₀, v₀⟩ := e
    by_cases h₀ : k₀ = k
    · subst h₀
      simp [set, get, Ne.symm h]
    · by_cases h₁ : k₀ = k'
      · subst h₁
        simp [set, get, h₀]
      · simp [set, get, h₀, h₁, ih]

theorem get_delete_self (m : GoMap V) (k : String) : (m.delete k).get k = none := by
  induction m with
  | nil => simp [delete, get]
  | cons e r ih =>
    obtain ⟨k₀, v₀⟩ := e
    by_cases h₀ : k₀ = k
    · simpa [delete, h₀] using ih
    · simpa [delete, h₀, get] using ih

theorem get_delete_ne (m : GoMap V) {k k' : String} (h : k' ≠ k) :
    (m.delete k).get k' = m.get k' := by
  induction m with
  | nil => simp [delete, get]
  | cons e r ih =>
    obtain ⟨k₀, v₀⟩ := e
    by_cases h₀ : k₀ = k
    · subst h₀
      simpa [delete, get, Ne.symm h] using ih
    · by_cases h₁ : k₀ = k'
      · subst h₁
        simp [delete, h₀, get]
      · simpa [delete, h₀, get, h₁] using ih

theorem mem_keys_iff (m : GoMap V) (k : String) : k ∈ m.keys ↔ (m.get k).isSome = true := by
  induction m with
  | nil => simp [keys, get]
  | cons e r ih =>
    obtain ⟨k₀, v₀⟩ := e
    by_cases h₀ : k₀ = k
    · simp [keys, get, h₀]
    · have ih' : k ∈ List.map Prod.fst r ↔ (get r k).isSome = true := ih
      simp [keys, get, h₀, Ne.symm h₀, ih']

theorem get_eq_none_iff (m : GoMap V) (k : String) : m.get k = none ↔ k ∉ m.keys := by
  rw [mem_keys_iff]
  cases m.get k <;> simp

theorem keys_cons (k₀ : String) (v₀ : V) (r : GoMap V) :
    keys ((k₀, v₀) :: r) = k₀ :: keys r := rfl

theorem keys_set_of_mem (m : GoMap V) {k : String} (h : k ∈ m.keys) (v : V) :
    (m.set k v).keys = m.keys := by
  induction m with
  | nil => simp [keys] at h
  | cons e r ih =>
    obtain ⟨k₀, v₀⟩ := e
    by_cases h₀ : k₀ = k
    · simp [keys, set, h₀]
    · rw [keys_cons, List.mem_cons] at h
      have hr : k ∈ keys r := h.resolve_left (fun h' => h₀ h'.symm)
      simp [set, h₀, keys_cons, ih hr]

theorem keys_set_of_not_mem (m : GoMap V) {k : String} (h : k ∉ m.keys) (v : V) :
    (m.set k v).keys = m.keys ++ [k] := by
  induction m with
  | nil => simp [keys, set]
  | cons e r ih =>
    obtain ⟨k₀, v₀⟩ := e
    rw [keys_cons, List.mem_cons, not_or] at h
    simp [set, Ne.symm h.1, keys_cons, ih h.2]

theorem mem_keys_delete (m : GoMap V) (k k' : String) :
    k' ∈ (m.delete k).keys ↔ k' ≠ k ∧ k' ∈ m.keys := by
  rw [mem_keys_iff, mem_keys_iff]
  by_cases h : k' = k
  · subst h
    simp [get_delete_self]
  · simp [get_delete_ne m h, h]

theorem keys_delete_sublist (m : GoMap V) (k : String) :
    List.Sublist (m.delete k).keys m.keys := by
  induction m with
  | nil => simp [delete]
  | cons e r ih =>
    obtain ⟨k₀, v₀⟩ := e
    by_cases h₀ : k₀ = k
    · simpa [delete, h₀, keys_cons] using ih.trans (List.sublist_cons_self k (keys r))
    · simpa [delete, h₀, keys_cons] using ih

theorem length_keys (m : GoMap V) : m.keys.length = m.length := by
  simp [keys]

theorem delete_of_not_mem (m : GoMap V) {k : String} (h : k ∉ m.keys) : m.delete k = m := by
  induction m with
  | nil => simp [delete]
  | cons e r ih =>
    obtain ⟨k₀, v₀⟩ := e
    rw [keys_cons, List.mem_cons, not_or] at h
    simp [delete, Ne.symm h.1, ih h.2]

theorem length_delete_of_nodup (m : GoMap V) {k : String} (hn : m.keys.Nodup) (hk : k ∈ m.keys) :
    (m.delete k).length + 1 = m.length := by
  induction m with
  | nil => simp [keys] at hk
  | cons e r ih =>
    obtain ⟨k₀, v₀⟩ := e
    rw [keys_cons, List.nodup_cons] at hn
    by_cases h₀ : k₀ = k
    · subst h₀
      simp [delete, delete_of_not_mem r hn.1]
    · rw [keys_cons, List.mem_cons] at hk
      have hr : k ∈ keys r := hk.resolve_left (fun h' => h₀ h'.symm)
      simp [delete, h₀, ih hn.2 hr]

end GoMap

/-! ## The LRU cache: histories and the recency list -/

namespace lru

variable {V : Type}

theorem run_append_singleton (capacity : Int) (ops : List (Call V)) (op : Call V) :
    run capacity (ops ++ [op]) = step (run capacity ops) op := by
  simp [run, List.foldl_append]

theorem lastTouchFrom_append_singleton (c : LRUCache V) (n acc : Nat) (key : String)
    (ops : List (Call V)) (op : Call V) :
    lastTouchFrom c n acc key (ops ++ [op]) =
      if touches (ops.foldl step c) op key then n + ops.length + 1
      else lastTouchFrom c n acc key ops := by
  induction ops generalizing c n acc with
  | nil => simp [lastTouchFrom]
  | cons o r ih =>
    have h := ih (step c o) (n + 1) (if touches c o key then n + 1 else acc)
    have harith : n + 1 + r.length + 1 = n + (r.length + 1) + 1 := by omega
    rw [harith] at h
    simpa [lastTouchFrom] using h

theorem lastTouch_append_singleton (capacity : Int) (ops : List (Call V)) (op : Call V)
    (key : String) :
    lastTouch capacity (ops ++ [op]) key =
      if touches (run capacity ops) op key then ops.length + 1
      else lastTouch capacity ops key := by
  simp [lastTouch, run, lastTouchFrom_append_singleton]

theorem lastTouchFrom_le (c : LRUCache V) (n acc : Nat) (key : String) (ops : List (Call V))
    (hacc : acc ≤ n) : lastTouchFrom c n acc key ops ≤ n + ops.length := by
  induction ops generalizing c n acc with
  | nil => simpa [lastTouchFrom] using hacc
  | cons o r ih =>
    have h := ih (step c o) (n + 1) (if touches c o key then n + 1 else acc)
      (by split <;> omega)
    simp only [lastTouchFrom, List.length_cons]
    omega

theorem lastTouch_le (capacity : Int) (ops : List (Call V)) (key : String) :
    lastTouch capacity ops key ≤ ops.length := by
  have := lastTouchFrom_le (NewLRUCache capacity : LRUCache V) 0 0 key ops (le_refl 0)
  simpa [lastTouch] using this

/-- Pushing a freshly touched key in front of a part of a list ordered by decreasing stamps
keeps the list ordered by decreasing stamps. -/
theorem pairwise_touch {s s' : String → Nat} {n : Nat} {k : String} {l l' : List String}
    (hs : ∀ x, s x ≤ n) (hk' : s' k = n + 1) (hs' : ∀ x, x ≠ k → s' x = s x)
    (hl : l.Pairwise (fun a b => s b < s a)) (hsub : l'.Sublist l) (hk : k ∉ l') :
    (k :: l').Pairwise (fun a b => s' b < s' a) := by
  refine List.pairwise_cons.2 ⟨?_, ?_⟩
  · intro b hb
    have hbk : b ≠ k := fun h => hk (h ▸ hb)
    rw [hs' b hbk, hk']
    exact Nat.lt_succ_of_le (hs b)
  · refine (hl.sublist hsub).imp_of_mem ?_
    intro a b ha hb hab
    have hak : a ≠ k := fun h => hk (h ▸ ha)
    have hbk : b ≠ k := fun h => hk (h ▸ hb)
    rw [hs' a hak, hs' b hbk]
    exact hab

namespace LRUCache

theorem Get_fst (c : LRUCache V) (key : String) :
    (c.Get key).1 = c.BaseCache.Data.get key := by
  unfold Get base.BaseCache.Get
  cases c.BaseCache.Data.get key <;> rfl

/-- After `Clear` an LRU cache is empty and finds no key. -/
theorem Get_Clear (c : LRUCache V) (key : String) :
    (c.Clear.Get key).1 = none ∧ c.Clear.Len = 0 := by
  rw [Get_fst]
  exact ⟨rfl, rfl⟩

theorem Set_of_mem (c : LRUCache V) {key : String} (h : key ∈ c.BaseCache.Data.keys)
    (value : V) :
    c.Set key value =
      { BaseCache := { c.BaseCache with Data := c.BaseCache.Data.set key value },
        order := key :: c.order.erase key } := by
  have h' := (GoMap.mem_keys_iff _ _).1 h
  simp [Set, h', updateOrder]

theorem Set_of_not_mem_room (c : LRUCache V) {key : String} (h : key ∉ c.BaseCache.Data.keys)
    (hlen : c.BaseCache.Data.len < c.BaseCache.Capacity) (value : V) :
    c.Set key value =
      { BaseCache := { c.BaseCache with Data := c.BaseCache.Data.set key value },
        order := key :: c.order } := by
  have h' := (GoMap.get_eq_none_iff _ _).2 h
  have hlen' : ¬ c.BaseCache.Data.len ≥ c.BaseCache.Capacity := not_le.2 hlen
  simp [Set, h', hlen']

theorem Set_of_not_mem_full (c : LRUCache V) {key oldest : String}
    (h : key ∉ c.BaseCache.Data.keys)
    (hlen : c.BaseCache.Data.len ≥ c.BaseCache.Capacity)
    (hlast : c.order.getLast? = some oldest) (value : V) :
    c.Set key value =
      { BaseCache :=
          { c.BaseCache with Data := (c.BaseCache.Data.delete oldest).set key value },
        order := key :: c.order.dropLast } := by
  have h' := (GoMap.get_eq_none_iff _ _).2 h
  simp [Set, h', hlen, evict, hlast]

end LRUCache

theorem Inv.length_eq {s : String → Nat} {c : LRUCache V} (h : Inv s c) :
    c.order.length = c.BaseCache.Data.length := by
  have hp : c.order.Perm c.BaseCache.Data.keys :=
    (List.perm_ext_iff_of_nodup h.nodupOrder h.nodupKeys).2 h.mem
  rw [hp.length_eq, GoMap.length_keys]

theorem Inv.congr {s s' : String → Nat} {c : LRUCache V} (h : Inv s c)
    (hs : ∀ x, s' x = s x) : Inv s' c := by
  have : s' = s := funext hs
  rw [this]
  exact h

/-- The back of the recency list of a full cache, with what is in front of it. -/
theorem Inv.exists_last {s : String → Nat} {c : LRUCache V} (h : Inv s c)
    (hfull : c.BaseCache.Data.len ≥ c.BaseCache.Capacity) :
    ∃ oldest, c.order.getLast? = some oldest ∧ c.order = c.order.dropLast ++ [oldest] ∧
      oldest ∉ c.order.dropLast ∧ oldest ∈ c.BaseCache.Data.keys := by
  have hlen := h.length_eq
  have hpos : 0 < c.order.length := by
    have h1 := h.cap
    have h2 : (c.BaseCache.Data.length : Int) ≥ c.BaseCache.Capacity := hfull
    omega
  have hne : c.order ≠ [] := List.ne_nil_of_length_pos hpos
  refine ⟨c.order.getLast hne, List.getLast?_eq_getLast _ hne, ?_, ?_, ?_⟩
  · exact (List.dropLast_append_getLast hne).symm
  · have hnd := h.nodupOrder
    rw [← List.dropLast_append_getLast hne] at hnd
    have := (List.nodup_append.1 hnd).2.2
    intro hmem
    exact this hmem (List.mem_singleton_self _)
  · exact (h.mem _).1 (List.getLast_mem hne)

theorem Inv.updateOrder {s s' : String → Nat} {n : Nat} {c : LRUCache V} {k : String}
    (h : Inv s c) (hk : k ∈ c.BaseCache.Data.keys)
    (hs : ∀ x, s x ≤ n) (hk' : s' k = n + 1) (hs' : ∀ x, x ≠ k → s' x = s x) :
    Inv s' (c.updateOrder k) where
  nodupOrder := List.nodup_cons.2 ⟨h.nodupOrder.not_mem_erase, h.nodupOrder.erase k⟩
  nodupKeys := h.nodupKeys
  mem := by
    intro x
    show x ∈ k :: c.order.erase k ↔ x ∈ c.BaseCache.Data.keys
    by_cases hx : x = k
    · subst hx
      simp [hk]
    · simp [hx, List.mem_erase_of_ne hx, h.mem x]
  sorted := pairwise_touch hs hk' hs' h.sorted (List.erase_sublist k c.order)
    h.nodupOrder.not_mem_erase
  len := h.len
  cap := h.cap

theorem Inv.Set {s s' : String → Nat} {n : Nat} {c : LRUCache V} {k : String} (v : V)
    (h : Inv s c)
    (hs : ∀ x, s x ≤ n) (hk' : s' k = n + 1) (hs' : ∀ x, x ≠ k → s' x = s x) :
    Inv s' (c.Set k v) := by
  by_cases hk : k ∈ c.BaseCache.Data.keys
  · have hu := h.updateOrder hk hs hk' hs'
    rw [LRUCache.Set_of_mem c hk]
    exact
      { nodupOrder := hu.nodupOrder
        nodupKeys := by
          show (c.BaseCache.Data.set k v).keys.Nodup
          rw [GoMap.keys_set_of_mem _ hk]
          exact h.nodupKeys
        mem := by
          intro x
          show x ∈ k :: c.order.erase k ↔ x ∈ (c.BaseCache.Data.set k v).keys
          rw [GoMap.keys_set_of_mem _ hk]
          exact hu.mem x
        sorted := hu.sorted
        len := by
          show ((c.BaseCache.Data.set k v).length : Int) ≤ c.BaseCache.Capacity
          rw [← GoMap.length_keys, GoMap.keys_set_of_mem _ hk, GoMap.length_keys]
          exact h.len
        cap := h.cap }
  · have hko : k ∉ c.order := fun hm => hk ((h.mem k).1 hm)
    by_cases hlen : c.BaseCache.Data.len ≥ c.BaseCache.Capacity
    · obtain ⟨oldest, hlast, hsplit, hnot, hold⟩ := h.exists_last hlen
      have hsub : c.order.dropLast.Sublist c.order := List.dropLast_sublist c.order
      have hkd : k ∉ c.order.dropLast := fun hm => hko (hsub.subset hm)
      have hkdel : k ∉ (c.BaseCache.Data.delete oldest).keys := fun hm =>
        hk ((GoMap.mem_keys_delete _ _ _).1 hm).2
      rw [LRUCache.Set_of_not_mem_full c hk hlen hlast]
      exact
        { nodupOrder := List.nodup_cons.2 ⟨hkd, h.nodupOrder.sublist hsub⟩
          nodupKeys := by
            show ((c.BaseCache.Data.delete oldest).set k v).keys.Nodup
            rw [GoMap.keys_set_of_not_mem _ hkdel]
            refine List.Nodup.append (h.nodupKeys.sublist (GoMap.keys_delete_sublist _ _))
              (List.nodup_singleton k) ?_
            intro x hx hx'
            rw [List.mem_singleton] at hx'
            exact hkdel (hx' ▸ hx)
          mem := by
            intro x
            show x ∈ k :: c.order.dropLast ↔
              x ∈ ((c.BaseCache.Data.delete oldest).set k v).keys
            rw [GoMap.keys_set_of_not_mem _ hkdel, List.mem_append, List.mem_singleton,
              List.mem_cons, GoMap.mem_keys_delete, ← h.mem x]
            have hmem : x ∈ c.order ↔ x ∈ c.order.dropLast ∨ x = oldest := by
              conv_lhs => rw [hsplit]
              simp
            constructor
            · rintro (hx | hx)
              · exact Or.inr hx
              · exact Or.inl ⟨fun he => hnot (he ▸ hx), hmem.2 (Or.inl hx)⟩
            · rintro (⟨hne, hx⟩ | hx)
              · exact Or.inr ((hmem.1 hx).resolve_right hne)
              · exact Or.inl hx
          sorted := pairwise_touch hs hk' hs' h.sorted hsub hkd
          len := by
            show (((c.BaseCache.Data.delete oldest).set k v).length : Int) ≤ c.BaseCache.Capacity
            have h1 := GoMap.length_delete_of_nodup _ h.nodupKeys hold
            have h2 : ((c.BaseCache.Data.delete oldest).set k v).length
                = (c.BaseCache.Data.delete oldest).length + 1 := by
              rw [← GoMap.length_keys, GoMap.keys_set_of_not_mem _ hkdel]
              simp [GoMap.length_keys]
            have h3 : (c.BaseCache.Data.length : Int) ≤ c.BaseCache.Capacity := h.len
            omega
          cap := h.cap }
    · have hlen' : c.BaseCache.Data.len < c.BaseCache.Capacity := not_le.1 hlen
      rw [LRUCache.Set_of_not_mem_room c hk hlen']
      exact
        { nodupOrder := List.nodup_cons.2 ⟨hko, h.nodupOrder⟩
          nodupKeys := by
            show (c.BaseCache.Data.set k v).keys.Nodup
            rw [GoMap.keys_set_of_not_mem _ hk]
            refine List.Nodup.append h.nodupKeys (List.nodup_singleton k) ?_
            intro x hx hx'
            rw [List.mem_singleton] at hx'
            exact hk (hx' ▸ hx)
          mem := by
            intro x
            show x ∈ k :: c.order ↔ x ∈ (c.BaseCache.Data.set k v).keys
            rw [GoMap.keys_set_of_not_mem _ hk, List.mem_append, List.mem_singleton,
              List.mem_cons, h.mem x]
            exact or_comm
          sorted := pairwise_touch hs hk' hs' h.sorted (List.Sublist.refl _) hko
          len := by
            show ((c.BaseCache.Data.set k v).length : Int) ≤ c.BaseCache.Capacity
            have h2 : (c.BaseCache.Data.set k v).length = c.BaseCache.Data.length + 1 := by
              rw [← GoMap.length_keys, GoMap.keys_set_of_not_mem _ hk]
              simp [GoMap.length_keys]
            have h3 : (c.BaseCache.Data.length : Int) < c.BaseCache.Capacity := hlen'
            omega
          cap := h.cap }

/-- Every cache reached from the empty cache of a capacity of at least 1 by Set and Get calls
satisfies the invariant, the stamps being the positions of the most recent touches. -/
theorem inv_run (capacity : Int) (hcap : 1 ≤ capacity) (ops : List (Call V)) :
    Inv (lastTouch capacity ops) (run capacity ops) := by
  induction ops using List.reverseRecOn with
  | nil =>
    exact
      { nodupOrder := List.nodup_nil
        nodupKeys := List.nodup_nil
        mem := by intro k; simp [run, NewLRUCache, base.NewBaseCache, GoMap.keys]
        sorted := List.Pairwise.nil
        len := by
          show ((0 : Nat) : Int) ≤ capacity
          omega
        cap := hcap }
  | append_singleton ops op ih =>
    rw [run_append_singleton]
    cases op with
    | set key value =>
      refine ih.Set value (lastTouch_le capacity ops) ?_ ?_
      · simp [lastTouch_append_singleton, touches]
      · intro x hx
        simp [lastTouch_append_singleton, touches, Ne.symm hx]
    | get key =>
      show Inv _ ((run capacity ops).Get key).2
      cases hget : (run capacity ops).BaseCache.Data.get key with
      | none =>
        have hstate : ((run capacity ops).Get key).2 = run capacity ops := by
          simp [LRUCache.Get, base.BaseCache.Get, hget]
        rw [hstate]
        refine ih.congr ?_
        intro x
        simp [lastTouch_append_singleton, touches, base.BaseCache.Get, hget]
      | some value =>
        have hstate : ((run capacity ops).Get key).2 = (run capacity ops).updateOrder key := by
          simp [LRUCache.Get, base.BaseCache.Get, hget]
        rw [hstate]
        have hk : key ∈ (run capacity ops).BaseCache.Data.keys := by
          rw [GoMap.mem_keys_iff, hget]
          rfl
        refine ih.updateOrder hk (lastTouch_le capacity ops) ?_ ?_
        · simp [lastTouch_append_singleton, touches, base.BaseCache.Get, hget]
        · intro x hx
          simp [lastTouch_append_singleton, touches, Ne.symm hx]

theorem run_capacity (capacity : Int) (ops : List (Call V)) :
    (run capacity ops).BaseCache.Capacity = capacity := by
  induction ops using List.reverseRecOn with
  | nil => rfl
  | append_singleton ops op ih =>
    rw [run_append_singleton]
    cases op with
    | set key value =>
      show ((run capacity ops).Set key value).BaseCache.Capacity = capacity
      unfold LRUCache.Set LRUCache.evict LRUCache.updateOrder
      split
      · exact ih
      · split
        · split <;> exact ih
        · exact ih
    | get key =>
      show ((run capacity ops).Get key).2.BaseCache.Capacity = capacity
      unfold LRUCache.Get LRUCache.updateOrder
      split <;> exact ih

end lru

/-! ## The LFU cache -/

namespace lfu

variable {V : Type}

namespace LFUCache

theorem Get_fst_lfu (c : LFUCache V) (key : String) :
    (c.Get key).1 = c.BaseCache.Data.get key := by
  unfold Get base.BaseCache.Get
  cases c.BaseCache.Data.get key <;> rfl

/-- After `Clear` an LFU cache is empty and finds no key. -/
theorem Get_Clear_lfu (c : LFUCache V) (key : String) :
    (c.Clear.Get key).1 = none ∧ c.Clear.Len = 0 := by
  rw [Get_fst_lfu]
  exact ⟨rfl, rfl⟩

theorem Set_of_mem_lfu (c : LFUCache V) {key : String} (h : key ∈ c.BaseCache.Data.keys)
    (value : V) :
    c.Set key value =
      { BaseCache := { c.BaseCache with Data := c.BaseCache.Data.set key value },
        freq := incr c.freq key } := by
  have h' := (GoMap.mem_keys_iff _ _).1 h
  simp [Set, h']

end LFUCache

end lfu

/-! ## The time-based cache -/

namespace timebased

variable {V : Type}

namespace TimeBasedCache

/-- A Get of a key whose expiry record lies in the future returns the recorded value and
leaves the cache as it was. -/
theorem Get_of_fresh (c : TimeBasedCache V) (now : Int) (key : String) (it : item V)
    (hfree : c.BaseCache.Mutex = sync.RWMutex.free)
    (hrec : c.ttlMap.get key = some it) (hnow : now < it.expiration) :
    c.Get now key = .ok (some it.value, c) := by
  obtain ⟨⟨data, capacity, mutex⟩, duration, ttl, chan, once⟩ := c
  simp only at hfree hrec
  subst hfree
  simp [Get, sync.RWMutex.RLock, sync.RWMutex.RUnlock, sync.RWMutex.free, hrec, hnow, withMutex,
    bind, Except.bind, pure, Except.pure]

/-- A Get of a key whose expiry record does not lie in the future ends in the run-time error
of `RUnlock`: the deferred `RUnlock` runs after the read lock was already released. -/
theorem Get_of_expired (c : TimeBasedCache V) (now : Int) (key : String) (it : item V)
    (hfree : c.BaseCache.Mutex = sync.RWMutex.free)
    (hrec : c.ttlMap.get key = some it) (hnow : ¬ now < it.expiration) :
    c.Get now key = .error sync.Fault.rUnlockOfUnlocked := by
  simp [Get, sync.RWMutex.RLock, sync.RWMutex.RUnlock, sync.RWMutex.Lock, sync.RWMutex.Unlock,
    sync.RWMutex.free, hfree, hrec, hnow, bind, Except.bind, pure, Except.pure]

/-- A Get of a key without expiry record reports not-found and leaves the cache as it was. -/
theorem Get_of_absent (c : TimeBasedCache V) (now : Int) (key : String)
    (hfree : c.BaseCache.Mutex = sync.RWMutex.free)
    (hrec : c.ttlMap.get key = none) :
    c.Get now key = .ok (none, c) := by
  obtain ⟨⟨data, capacity, mutex⟩, duration, ttl, chan, once⟩ := c
  simp only at hfree hrec
  subst hfree
  simp [Get, sync.RWMutex.RLock, sync.RWMutex.RUnlock, sync.RWMutex.free, hrec, withMutex,
    bind, Except.bind, pure, Except.pure]

end TimeBasedCache

end timebased

/-! ## The storage map holds each key once -/

namespace GoMap

variable {V : Type}

theorem keys_nodup_set (m : GoMap V) (h : m.keys.Nodup) (k : String) (v : V) :
    (m.set k v).keys.Nodup := by
  by_cases hk : k ∈ m.keys
  · rw [keys_set_of_mem m hk]
    exact h
  · rw [keys_set_of_not_mem m hk]
    refine List.Nodup.append h (List.nodup_singleton k) ?_
    intro x hx hx'
    rw [List.mem_singleton] at hx'
    exact hk (hx' ▸ hx)

theorem keys_nodup_delete (m : GoMap V) (h : m.keys.Nodup) (k : String) :
    (m.delete k).keys.Nodup :=
  h.sublist (keys_delete_sublist m k)

theorem get_eq_some_iff_mem (m : GoMap V) (h : m.keys.Nodup) (k : String) (v : V) :
    m.get k = some v ↔ (k, v) ∈ m := by
  induction m with
  | nil => simp [get]
  | cons e r ih =>
    obtain ⟨k₀, v₀⟩ := e
    rw [keys_cons, List.nodup_cons] at h
    by_cases h₀ : k₀ = k
    · subst h₀
      constructor
      · intro hv
        have hv' : v₀ = v := by simpa [get] using hv
        rw [hv']
        exact List.mem_cons_self _ _
      · intro hmem
        rcases List.mem_cons.1 hmem with heq | hr
        · have hv' : v = v₀ := (Prod.mk.inj heq).2
          simp [get, hv']
        · exact absurd (List.mem_map_of_mem Prod.fst hr) h.1
    · have hcons : (k, v) ∈ (k₀, v₀) :: r ↔ (k, v) ∈ r := by
        rw [List.mem_cons]
        constructor
        · rintro (heq | hr)
          · exact absurd (Prod.mk.inj heq).1.symm h₀
          · exact hr
        · exact Or.inr
      rw [hcons, ← ih h.2]
      simp [get, h₀]

/-- The lookup does not depend on the order in which a map is listed. -/
theorem get_of_perm {m m' : GoMap V} (h : m.keys.Nodup) (hp : m'.Perm m) (k : String) :
    m'.get k = m.get k := by
  have h' : m'.keys.Nodup := (hp.map Prod.fst).nodup_iff.2 h
  apply Option.ext
  intro v
  simp only [Option.mem_def]
  rw [get_eq_some_iff_mem m' h', get_eq_some_iff_mem m h]
  exact hp.mem_iff

end GoMap

/-! ## The time-based cache: the stop channel and the sweep -/

namespace timebased

variable {V : Type}

namespace TimeBasedCache

theorem evict_fields (c : TimeBasedCache V) (now : Int) :
    (c.evict now).expirationDuration = c.expirationDuration ∧
    (c.evict now).stopChan = c.stopChan ∧ (c.evict now).stopOnce = c.stopOnce := by
  simp only [evict]
  split <;> exact ⟨rfl, rfl, rfl⟩

theorem Set_fields (c : TimeBasedCache V) (evictNow now : Int) (key : String) (value : V) :
    (c.Set evictNow now key value).expirationDuration = c.expirationDuration ∧
    (c.Set evictNow now key value).stopChan = c.stopChan ∧
    (c.Set evictNow now key value).stopOnce = c.stopOnce := by
  simp only [Set]
  split
  · exact evict_fields c evictNow
  · exact ⟨rfl, rfl, rfl⟩

theorem sweep_fields (l : GoMap (item V)) (now : Int) (c : TimeBasedCache V) :
    (l.foldl (fun acc e => if e.2.expiration < now then acc.remove e.1 else acc) c).stopChan
        = c.stopChan ∧
    (l.foldl (fun acc e => if e.2.expiration < now then acc.remove e.1 else acc) c).stopOnce
        = c.stopOnce := by
  induction l generalizing c with
  | nil => exact ⟨rfl, rfl⟩
  | cons e r ih =>
    rw [List.foldl_cons]
    by_cases h : e.2.expiration < now
    · rw [if_pos h]
      exact ih (c.remove e.1)
    · rw [if_neg h]
      exact ih c

theorem Get_fields (c : TimeBasedCache V) (now : Int) (key : String)
    (r : Option V × TimeBasedCache V) (h : c.Get now key = .ok r) :
    r.2.stopChan = c.stopChan ∧ r.2.stopOnce = c.stopOnce := by
  unfold Get at h
  simp only [bind, Except.bind, pure, Except.pure] at h
  split at h
  · exact absurd h (by simp)
  · split at h
    · split at h
      · split at h
        · exact absurd h (by simp)
        · cases h
          exact ⟨rfl, rfl⟩
      · split at h
        · exact absurd h (by simp)
        · split at h
          · exact absurd h (by simp)
          · split at h
            · exact absurd h (by simp)
            · split at h
              · exact absurd h (by simp)
              · cases h
                exact ⟨rfl, rfl⟩
    · split at h
      · exact absurd h (by simp)
      · cases h
        exact ⟨rfl, rfl⟩

/-- The stop channel is closed exactly when `stopOnce` is done: this holds in the new cache and
every method keeps it. -/
theorem stop_fields_agree (capacity duration : Int) (c : TimeBasedCache V)
    (h : c.stopChan.closed = c.stopOnce.done) :
    (NewTimeBasedCache capacity duration : TimeBasedCache V).stopChan.closed
      = (NewTimeBasedCache capacity duration : TimeBasedCache V).stopOnce.done ∧
    (∀ evictNow now key value,
      (c.Set evictNow now key value).stopChan.closed
        = (c.Set evictNow now key value).stopOnce.done) ∧
    (∀ now key r, c.Get now key = .ok r → r.2.stopChan.closed = r.2.stopOnce.done) ∧
    (∀ key, (c.Delete key).stopChan.closed = (c.Delete key).stopOnce.done) ∧
    c.Clear.stopChan.closed = c.Clear.stopOnce.done ∧
    (∀ now, (c.cleanupExpiredItems now).stopChan.closed
      = (c.cleanupExpiredItems now).stopOnce.done) ∧
    (∀ c1, c.StopCleanup = .ok c1 → c1.stopChan.closed = c1.stopOnce.done) := by
  refine ⟨rfl, ?_, ?_, ?_, h, ?_, ?_⟩
  · intro evictNow now key value
    obtain ⟨-, h1, h2⟩ := Set_fields c evictNow now key value
    rw [h1, h2]
    exact h
  · intro now key r hr
    obtain ⟨h1, h2⟩ := Get_fields c now key r hr
    rw [h1, h2]
    exact h
  · intro key
    exact h
  · intro now
    obtain ⟨h1, h2⟩ := sweep_fields c.ttlMap now c
    unfold cleanupExpiredItems
    rw [h1, h2]
    exact h
  · intro c1 hc1
    unfold StopCleanup Chan.close at hc1
    by_cases hd : c.stopOnce.done = true
    · rw [if_pos hd] at hc1
      cases hc1
      exact h
    · rw [if_neg hd] at hc1
      have hcl : c.stopChan.closed = false := by
        rw [h]
        simpa using hd
      simp only [hcl, bind, Except.bind, pure, Except.pure] at hc1
      cases hc1
      rfl

end TimeBasedCache

end timebased

/-! ## The LRU cache: the recency list and the storage map hold the same keys -/

namespace lru

variable {V : Type}

namespace LRUCache

theorem Set_of_not_mem (c : LRUCache V) {key : String} (h : key ∉ c.BaseCache.Data.keys)
    (value : V) :
    c.Set key value =
      { BaseCache :=
          { (if c.BaseCache.Data.len ≥ c.BaseCache.Capacity then c.evict else c).BaseCache with
            Data := (if c.BaseCache.Data.len ≥ c.BaseCache.Capacity then c.evict
              else c).BaseCache.Data.set key value },
        order := key ::
          (if c.BaseCache.Data.len ≥ c.BaseCache.Capacity then c.evict else c).order } := by
  have h' := (GoMap.get_eq_none_iff _ _).2 h
  simp [Set, h']

/-- With its lock operations, and called with the mutex free, `Get` gives the result and the
recency list and storage map that the critical section alone gives. -/
theorem GetLocked_eq_Get (c : LRUCache V) (key : String)
    (hfree : c.BaseCache.Mutex = sync.RWMutex.free) :
    Except.map (fun r => (r.1, r.2.1)) (c.GetLocked key) = .ok (c.Get key) := by
  obtain ⟨⟨data, capacity, mutex⟩, order⟩ := c
  simp only at hfree
  subst hfree
  unfold GetLocked Get base.BaseCache.Get
  cases hget : GoMap.get data key <;>
    simp [sync.RWMutex.RLock, sync.RWMutex.RUnlock, sync.RWMutex.free, bind, Except.bind, pure,
      Except.pure, Except.map, updateOrder, hget]

end LRUCache

theorem Sync.keptByUpdateOrder {c : LRUCache V} {k : String} (h : Sync c)
    (hk : k ∈ c.BaseCache.Data.keys) : Sync (c.updateOrder k) where
  nodupOrder := List.nodup_cons.2 ⟨h.nodupOrder.not_mem_erase, h.nodupOrder.erase k⟩
  nodupKeys := h.nodupKeys
  mem := by
    intro x
    show x ∈ k :: c.order.erase k ↔ x ∈ c.BaseCache.Data.keys
    by_cases hx : x = k
    · subst hx
      simp [hk]
    · simp [hx, List.mem_erase_of_ne hx, h.mem x]

theorem Sync.keptByEvict {c : LRUCache V} (h : Sync c) : Sync c.evict := by
  unfold LRUCache.evict
  cases hlast : c.order.getLast? with
  | none => exact h
  | some oldest =>
    have hsplit : c.order.dropLast ++ [oldest] = c.order :=
      List.dropLast_append_getLast? oldest hlast
    have hnd := h.nodupOrder
    rw [← hsplit] at hnd
    have hnot : oldest ∉ c.order.dropLast := fun hm =>
      (List.nodup_append.1 hnd).2.2 hm (List.mem_singleton_self _)
    exact
      { nodupOrder := h.nodupOrder.sublist (List.dropLast_sublist c.order)
        nodupKeys := GoMap.keys_nodup_delete _ h.nodupKeys oldest
        mem := by
          intro x
          show x ∈ c.order.dropLast ↔ x ∈ (c.BaseCache.Data.delete oldest).keys
          rw [GoMap.mem_keys_delete, ← h.mem x]
          have hmem : x ∈ c.order ↔ x ∈ c.order.dropLast ∨ x = oldest := by
            conv_lhs => rw [← hsplit]
            simp
          constructor
          · intro hx
            exact ⟨fun he => hnot (he ▸ hx), hmem.2 (Or.inl hx)⟩
          · rintro ⟨hne, hx⟩
            exact (hmem.1 hx).resolve_right hne }

theorem Sync.evict_keys_subset {c : LRUCache V} {k : String}
    (hk : k ∈ c.evict.BaseCache.Data.keys) : k ∈ c.BaseCache.Data.keys := by
  unfold LRUCache.evict at hk
  cases hlast : c.order.getLast? with
  | none =>
    rw [hlast] at hk
    exact hk
  | some oldest =>
    rw [hlast] at hk
    exact ((GoMap.mem_keys_delete _ _ _).1 hk).2

theorem Sync.keptByInsert {c : LRUCache V} {k : String} (h : Sync c)
    (hk : k ∉ c.BaseCache.Data.keys) (v : V) :
    Sync { BaseCache := { c.BaseCache with Data := c.BaseCache.Data.set k v },
           order := k :: c.order } where
  nodupOrder := List.nodup_cons.2 ⟨fun hm => hk ((h.mem k).1 hm), h.nodupOrder⟩
  nodupKeys := GoMap.keys_nodup_set _ h.nodupKeys k v
  mem := by
    intro x
    show x ∈ k :: c.order ↔ x ∈ (c.BaseCache.Data.set k v).keys
    rw [GoMap.keys_set_of_not_mem _ hk, List.mem_append, List.mem_singleton, List.mem_cons,
      h.mem x]
    exact or_comm

theorem Sync.keptBySet {c : LRUCache V} (h : Sync c) (k : String) (v : V) : Sync (c.Set k v) := by
  by_cases hk : k ∈ c.BaseCache.Data.keys
  · have hu := h.keptByUpdateOrder hk
    rw [LRUCache.Set_of_mem c hk]
    exact
      { nodupOrder := hu.nodupOrder
        nodupKeys := GoMap.keys_nodup_set _ h.nodupKeys k v
        mem := by
          intro x
          show x ∈ k :: c.order.erase k ↔ x ∈ (c.BaseCache.Data.set k v).keys
          rw [GoMap.keys_set_of_mem _ hk]
          exact hu.mem x }
  · rw [LRUCache.Set_of_not_mem c hk]
    by_cases hlen : c.BaseCache.Data.len ≥ c.BaseCache.Capacity
    · rw [if_pos hlen]
      exact h.keptByEvict.keptByInsert (fun hm => hk (Sync.evict_keys_subset hm)) v
    · rw [if_neg hlen]
      exact h.keptByInsert hk v

/-- Every LRU cache reached from the empty cache, of any capacity, by Set and Get calls keeps
the recency list and the storage map on the same keys. -/
theorem sync_run (capacity : Int) (ops : List (Call V)) : Sync (run capacity ops) := by
  induction ops using List.reverseRecOn with
  | nil =>
    exact
      { nodupOrder := List.nodup_nil
        nodupKeys := List.nodup_nil
        mem := by intro k; simp [run, NewLRUCache, base.NewBaseCache, GoMap.keys] }
  | append_singleton ops op ih =>
    rw [run_append_singleton]
    cases op with
    | set key value => exact ih.keptBySet key value
    | get key =>
      show Sync ((run capacity ops).Get key).2
      cases hget : (run capacity ops).BaseCache.Data.get key with
      | none =>
        have hstate : ((run capacity ops).Get key).2 = run capacity ops := by
          simp [LRUCache.Get, base.BaseCache.Get, hget]
        rw [hstate]
        exact ih
      | some value =>
        have hstate : ((run capacity ops).Get key).2 = (run capacity ops).updateOrder key := by
          simp [LRUCache.Get, base.BaseCache.Get, hget]
        rw [hstate]
        have hk : key ∈ (run capacity ops).BaseCache.Data.keys := by
          rw [GoMap.mem_keys_iff, hget]
          rfl
        exact ih.keptByUpdateOrder hk

end lru

/-! ## The LFU cache: the frequency counters along a history -/

namespace lfu

variable {V : Type}

theorem wrapInt_of_range {x : Int} (hlo : -(2 ^ 63) ≤ x) (hhi : x < 2 ^ 63) : wrapInt x = x := by
  unfold wrapInt
  have h1 : (0 : Int) ≤ x + 2 ^ 63 := by omega
  have h2 : x + 2 ^ 63 < 2 ^ 64 := by omega
  rw [Int.emod_eq_of_lt h1 h2]
  omega

theorem get_incr_self (freq : GoMap Int) (k : String) :
    (incr freq k).get k = some (wrapInt ((freq.get k).getD 0 + 1)) :=
  GoMap.get_set_self _ _ _

theorem get_incr_ne (freq : GoMap Int) {k x : String} (h : x ≠ k) :
    (incr freq k).get x = freq.get x :=
  GoMap.get_set_ne _ h _

theorem run_append_singleton_lfu (capacity : Int) (ops : List (Call V)) (op : Call V) :
    run capacity (ops ++ [op]) = step (run capacity ops) op := by
  simp [run, List.foldl_append]

theorem runIn_append_singleton (capacity : Int) (sched : List (GoMap Int × Call V))
    (s : GoMap Int × Call V) :
    (runIn capacity (sched ++ [s]) : LFUCache V) = stepIn (runIn capacity sched) s.1 s.2 := by
  simp [runIn, List.foldl_append]

theorem validFrom_append_singleton (c : LFUCache V) (sched : List (GoMap Int × Call V))
    (s : GoMap Int × Call V) :
    validFrom c (sched ++ [s]) =
      (validFrom c sched &&
        decide (s.1.Perm (sched.foldl (fun c s => stepIn c s.1 s.2) c).freq)) := by
  induction sched generalizing c with
  | nil => simp [validFrom]
  | cons o r ih => simp [validFrom, ih, Bool.and_assoc]

theorem valid_append_singleton (capacity : Int) (sched : List (GoMap Int × Call V))
    (s : GoMap Int × Call V) :
    (valid capacity (sched ++ [s]) : Bool) =
      ((valid capacity sched : Bool) &&
        decide (s.1.Perm (runIn capacity sched : LFUCache V).freq)) := by
  simp [valid, runIn, validFrom_append_singleton]

theorem touchesSinceFrom_append_singleton (c : LFUCache V) (acc : Nat) (key : String)
    (sched : List (GoMap Int × Call V)) (s : GoMap Int × Call V) :
    touchesSinceFrom c acc key (sched ++ [s]) =
      touchesSinceStep (sched.foldl (fun c s => stepIn c s.1 s.2) c)
        (touchesSinceFrom c acc key sched) key s.2 := by
  induction sched generalizing c acc with
  | nil => rfl
  | cons o r ih =>
    simpa [touchesSinceFrom] using ih (stepIn c o.1 o.2) (touchesSinceStep c acc key o.2)

theorem touchesSince_append_singleton (capacity : Int) (sched : List (GoMap Int × Call V))
    (s : GoMap Int × Call V) (key : String) :
    (touchesSince capacity (sched ++ [s]) key : Nat) =
      touchesSinceStep (runIn capacity sched : LFUCache V) (touchesSince capacity sched key)
        key s.2 := by
  simp [touchesSince, runIn, touchesSinceFrom_append_singleton]

/-- The count of touches looks at the storage map only, not at the order of the frequency
map. -/
theorem touchesSinceStep_reorder (c : LFUCache V) (seen : GoMap Int) (acc : Nat) (key : String)
    (op : Call V) :
    touchesSinceStep { c with freq := seen } acc key op = touchesSinceStep c acc key op := by
  cases op <;> rfl

namespace LFUCache

/-- A key that is stored after `evict` was stored before it, with the same value and the same
counter. -/
theorem evict_of_stored (c : LFUCache V) {k : String}
    (h : (c.evict.BaseCache.Data.get k).isSome = true) :
    c.evict.freq.get k = c.freq.get k ∧
    c.evict.BaseCache.Data.get k = c.BaseCache.Data.get k := by
  simp only [evict] at h ⊢
  split at h
  · rename_i hne
    rw [if_pos hne]
    have hk : k ≠ (evictScan c.freq).2 := by
      intro he
      rw [he] at h
      simp [GoMap.get_delete_self] at h
    exact ⟨GoMap.get_delete_ne _ hk, GoMap.get_delete_ne _ hk⟩
  · rename_i hne
    rw [if_neg hne]
    exact ⟨rfl, rfl⟩

theorem Set_of_not_mem_lfu (c : LFUCache V) {key : String} (h : c.BaseCache.Data.get key = none)
    (value : V) :
    c.Set key value =
      { BaseCache :=
          { (if c.BaseCache.Data.len ≥ c.BaseCache.Capacity then c.evict else c).BaseCache with
            Data := (if c.BaseCache.Data.len ≥ c.BaseCache.Capacity then c.evict
              else c).BaseCache.Data.set key value },
        freq := (if c.BaseCache.Data.len ≥ c.BaseCache.Capacity then c.evict
          else c).freq.set key 1 } := by
  simp [Set, h]

/-- The counter of a key right after the Set that inserts it is 1. -/
theorem Set_insert_freq (c : LFUCache V) {k : String} (h : c.BaseCache.Data.get k = none)
    (v : V) : (c.Set k v).freq.get k = some 1 := by
  rw [Set_of_not_mem_lfu c h]
  exact GoMap.get_set_self _ _ _

/-- A Set of a stored key applies `freq[key]++` to its counter. -/
theorem Set_stored_freq (c : LFUCache V) {k : String}
    (h : (c.BaseCache.Data.get k).isSome = true) (v : V) :
    (c.Set k v).freq.get k = some (wrapInt ((c.freq.get k).getD 0 + 1)) := by
  rw [Set_of_mem_lfu c ((GoMap.mem_keys_iff _ _).2 h)]
  exact get_incr_self _ _

/-- A Get that hits applies `freq[key]++` to the counter of the key. -/
theorem Get_hit_freq (c : LFUCache V) {k : String}
    (h : (c.BaseCache.Data.get k).isSome = true) :
    (c.Get k).2.freq.get k = some (wrapInt ((c.freq.get k).getD 0 + 1)) := by
  unfold Get base.BaseCache.Get
  cases hget : c.BaseCache.Data.get k with
  | none => rw [hget] at h; exact absurd h (by simp)
  | some value => exact get_incr_self _ _

/-- A Get that misses changes nothing. -/
theorem Get_miss (c : LFUCache V) {k : String} (h : c.BaseCache.Data.get k = none) :
    (c.Get k).2 = c := by
  unfold Get base.BaseCache.Get
  rw [h]

/-- A Get leaves the storage map as it is. -/
theorem Get_Data (c : LFUCache V) (k : String) : (c.Get k).2.BaseCache = c.BaseCache := by
  unfold Get base.BaseCache.Get
  cases c.BaseCache.Data.get k <;> rfl

/-- A Get of another key leaves the counter as it is. -/
theorem Get_other_freq (c : LFUCache V) {k x : String} (h : k ≠ x) :
    (c.Get x).2.freq.get k = c.freq.get k := by
  unfold Get base.BaseCache.Get
  cases c.BaseCache.Data.get x with
  | none => rfl
  | some value => exact get_incr_ne _ h

/-- A key that is stored after a Set of another key was stored before it, with the same
counter. -/
theorem Set_other_freq (c : LFUCache V) {k x : String} (h : k ≠ x) (v : V)
    (hafter : ((c.Set x v).BaseCache.Data.get k).isSome = true) :
    (c.Set x v).freq.get k = c.freq.get k ∧ (c.BaseCache.Data.get k).isSome = true := by
  by_cases hx : (c.BaseCache.Data.get x).isSome = true
  · rw [Set_of_mem_lfu c ((GoMap.mem_keys_iff _ _).2 hx)] at hafter ⊢
    refine ⟨get_incr_ne _ h, ?_⟩
    have : (c.BaseCache.Data.set x v).get k = c.BaseCache.Data.get k := GoMap.get_set_ne _ h v
    rw [← this]
    exact hafter
  · have hx' : c.BaseCache.Data.get x = none := by
      cases hg : c.BaseCache.Data.get x with
      | none => rfl
      | some w => rw [hg] at hx; exact absurd rfl hx
    rw [Set_of_not_mem_lfu c hx'] at hafter ⊢
    by_cases hlen : c.BaseCache.Data.len ≥ c.BaseCache.Capacity
    · rw [if_pos hlen] at hafter ⊢
      have h1 : (c.evict.BaseCache.Data.set x v).get k = c.evict.BaseCache.Data.get k :=
        GoMap.get_set_ne _ h v
      have h2 : (c.evict.BaseCache.Data.get k).isSome = true := by
        rw [← h1]
        exact hafter
      obtain ⟨h3, h4⟩ := evict_of_stored c h2
      refine ⟨?_, ?_⟩
      · show (c.evict.freq.set x 1).get k = c.freq.get k
        rw [GoMap.get_set_ne _ h, h3]
      · rw [← h4]
        exact h2
    · rw [if_neg hlen] at hafter ⊢
      have h1 : (c.BaseCache.Data.set x v).get k = c.BaseCache.Data.get k :=
        GoMap.get_set_ne _ h v
      refine ⟨GoMap.get_set_ne _ h _, ?_⟩
      rw [← h1]
      exact hafter

end LFUCache

end lfu

namespace lfu

variable {V : Type}

namespace LFUCache

theorem evict_freq_nodup (c : LFUCache V) (h : c.freq.keys.Nodup) :
    c.evict.freq.keys.Nodup := by
  simp only [evict]
  split
  · exact GoMap.keys_nodup_delete _ h _
  · exact h

end LFUCache

/-- Every call keeps the frequency map a map: each key once. -/
theorem step_freq_nodup (c : LFUCache V) (h : c.freq.keys.Nodup) (op : Call V) :
    (step c op).freq.keys.Nodup := by
  cases op with
  | set k v =>
    show (c.Set k v).freq.keys.Nodup
    by_cases hst : (c.BaseCache.Data.get k).isSome = true
    · rw [LFUCache.Set_of_mem_lfu c ((GoMap.mem_keys_iff _ _).2 hst)]
      exact GoMap.keys_nodup_set _ h _ _
    · have hnone : c.BaseCache.Data.get k = none := by
        cases hg : c.BaseCache.Data.get k with
        | none => rfl
        | some w => rw [hg] at hst; exact absurd rfl hst
      rw [LFUCache.Set_of_not_mem_lfu c hnone]
      by_cases hlen : c.BaseCache.Data.len ≥ c.BaseCache.Capacity
      · rw [if_pos hlen]
        exact GoMap.keys_nodup_set _ (LFUCache.evict_freq_nodup c h) _ _
      · rw [if_neg hlen]
        exact GoMap.keys_nodup_set _ h _ _
  | get k =>
    show ((c.Get k).2).freq.keys.Nodup
    unfold LFUCache.Get base.BaseCache.Get
    cases c.BaseCache.Data.get k with
    | none => exact h
    | some value => exact GoMap.keys_nodup_set _ h _ _

/-- One call, whatever the order of the frequency map: when before the call every stored key
has the counter `1 + ts` with `ts + 1 ≤ n`, and `n + 1` is at most `2 ^ 63 - 1`, then after the
call every stored key has the counter 1 plus its updated number of touches. -/
theorem step_counter (c : LFUCache V) (ts : String → Nat) (n : Nat) (op : Call V)
    (hn : n + 1 ≤ 2 ^ 63 - 1)
    (hinv : ∀ k, (c.BaseCache.Data.get k).isSome = true →
      c.freq.get k = some ((1 : Int) + ts k) ∧ ts k + 1 ≤ n) :
    ∀ k, ((step c op).BaseCache.Data.get k).isSome = true →
      (step c op).freq.get k = some ((1 : Int) + touchesSinceStep c (ts k) k op) ∧
      touchesSinceStep c (ts k) k op + 1 ≤ n + 1 := by
  intro k hk
  cases op with
  | set x v =>
    change ((c.Set x v).BaseCache.Data.get k).isSome = true at hk
    show (c.Set x v).freq.get k = _ ∧ _
    by_cases hxk : x = k
    · subst hxk
      by_cases hst : (c.BaseCache.Data.get x).isSome = true
      · obtain ⟨hf, hb⟩ := hinv x hst
        have hts : touchesSinceStep c (ts x) x (Call.set x v) = ts x + 1 := by
          simp [touchesSinceStep, base.BaseCache.Get, hst]
        rw [hts, LFUCache.Set_stored_freq _ hst, hf]
        refine ⟨?_, by omega⟩
        rw [Option.getD_some, wrapInt_of_range (by omega) (by omega)]
        push_cast
        ring_nf
      · have hnone : c.BaseCache.Data.get x = none := by
          cases hg : c.BaseCache.Data.get x with
          | none => rfl
          | some w => rw [hg] at hst; exact absurd rfl hst
        have hts : touchesSinceStep c (ts x) x (Call.set x v) = 0 := by
          simp [touchesSinceStep, base.BaseCache.Get, hnone]
        rw [hts, LFUCache.Set_insert_freq _ hnone]
        exact ⟨rfl, by omega⟩
    · have hts : touchesSinceStep c (ts k) k (Call.set x v) = ts k := by
        simp [touchesSinceStep, hxk]
      obtain ⟨hf, hst⟩ := LFUCache.Set_other_freq c (Ne.symm hxk) v hk
      obtain ⟨hf', hb⟩ := hinv k hst
      rw [hts, hf, hf']
      exact ⟨rfl, by omega⟩
  | get x =>
    change (((c.Get x).2).BaseCache.Data.get k).isSome = true at hk
    show ((c.Get x).2).freq.get k = _ ∧ _
    rw [LFUCache.Get_Data] at hk
    obtain ⟨hf, hb⟩ := hinv k hk
    by_cases hxk : x = k
    · subst hxk
      have hts : touchesSinceStep c (ts x) x (Call.get x) = ts x + 1 := by
        simp [touchesSinceStep, base.BaseCache.Get, hk]
      rw [hts, LFUCache.Get_hit_freq _ hk, hf]
      refine ⟨?_, by omega⟩
      rw [Option.getD_some, wrapInt_of_range (by omega) (by omega)]
      push_cast
      ring_nf
    · have hts : touchesSinceStep c (ts k) k (Call.get x) = ts k := by
        simp [touchesSinceStep, hxk]
      rw [hts, LFUCache.Get_other_freq _ (Ne.symm hxk), hf]
      exact ⟨rfl, by omega⟩

/-- Along every execution of at most `2 ^ 63 - 1` Set and Get calls, whatever the orders in
which the frequency map is visited, the frequency map holds each key once, the counter of every
stored key is 1 plus the number of its touches since its insertion, and that number is below
the number of calls. -/
theorem counter_eq_touches (capacity : Int) (sched : List (GoMap Int × Call V))
    (hvalid : (valid capacity sched : Bool) = true) (hlen : sched.length ≤ 2 ^ 63 - 1) :
    (runIn capacity sched : LFUCache V).freq.keys.Nodup ∧
    ∀ k, ((runIn capacity sched : LFUCache V).BaseCache.Data.get k).isSome = true →
      (runIn capacity sched : LFUCache V).freq.get k
        = some ((1 : Int) + touchesSince capacity sched k) ∧
      touchesSince capacity sched k + 1 ≤ sched.length := by
  induction sched using List.reverseRecOn with
  | nil =>
    refine ⟨List.nodup_nil, ?_⟩
    intro k hk
    simp [runIn, NewLFUCache, base.NewBaseCache, GoMap.get] at hk
  | append_singleton sched s ih =>
    rw [valid_append_singleton, Bool.and_eq_true] at hvalid
    obtain ⟨hv, hp⟩ := hvalid
    have hperm : s.1.Perm (runIn capacity sched : LFUCache V).freq := of_decide_eq_true hp
    have hlen' : sched.length + 1 ≤ 2 ^ 63 - 1 := by simpa using hlen
    obtain ⟨hnd, hinv⟩ := ih hv (by omega)
    have hnd' : s.1.keys.Nodup := (hperm.map Prod.fst).nodup_iff.2 hnd
    rw [runIn_append_singleton]
    refine ⟨step_freq_nodup _ hnd' s.2, ?_⟩
    intro k hk
    rw [touchesSince_append_singleton, List.length_append, List.length_singleton]
    have hstep := step_counter { (runIn capacity sched : LFUCache V) with freq := s.1 }
      (touchesSince capacity sched) sched.length s.2 hlen'
      (fun x hx => by
        show s.1.get x = _ ∧ _
        rw [GoMap.get_of_perm hnd hperm x]
        exact hinv x hx) k hk
    rw [touchesSinceStep_reorder] at hstep
    exact hstep

/-- The execution that visits the frequency map in the order of its list is one of the
executions: `run` is `runIn` on it. -/
theorem run_is_execution (capacity : Int) (ops : List (Call V)) :
    ∃ sched : List (GoMap Int × Call V),
      sched.map Prod.snd = ops ∧ (valid capacity sched : Bool) = true ∧
      (runIn capacity sched : LFUCache V) = run capacity ops := by
  induction ops using List.reverseRecOn with
  | nil => exact ⟨[], rfl, rfl, rfl⟩
  | append_singleton ops op ih =>
    obtain ⟨sched, hmap, hv, hrun⟩ := ih
    refine ⟨sched ++ [((run capacity ops).freq, op)], ?_, ?_, ?_⟩
    · simp [hmap]
    · rw [valid_append_singleton, hv, hrun]
      simp
    · rw [runIn_append_singleton, hrun, run_append_singleton_lfu]
      rfl

/-- The cache of capacity 1 after `Set("a", 0)` and `n` calls of `Get("a")`, for `n` up to
`2 ^ 63 - 2`: the counter of `"a"` is `1 + n`. -/
theorem run_set_then_gets (n : Nat) (hn : n ≤ 2 ^ 63 - 2) :
    run 1 (Call.set "a" (0 : Nat) :: List.replicate n (Call.get "a")) =
      { BaseCache := { Data := [("a", 0)], Capacity := 1, Mutex := sync.RWMutex.free },
        freq := [("a", (1 : Int) + n)] } := by
  induction n with
  | zero => rfl
  | succ n ih =>
    rw [List.replicate_succ', ← List.cons_append, run_append_singleton_lfu, ih (by omega)]
    have hw : wrapInt ((1 : Int) + n + 1) = 1 + ((n + 1 : Nat) : Int) := by
      rw [wrapInt_of_range (by omega) (by omega)]
      push_cast
      ring
    simp [step, LFUCache.Get, base.BaseCache.Get, GoMap.get, incr, GoMap.set, hw]

end lfu

/-! ## Claims -/

/-- C1: in an LRU cache of capacity at least 1 reached from the empty cache by Set and Get
calls and holding capacity entries, a Set of a key that is not stored removes exactly one key,
the stored key whose most recent touch is older than that of every other stored key; every
other key is retrieved as before, the new key is retrieved with the value just set, and the
cache still holds capacity entries. -/
theorem lru_set_evicts_least_recently_touched {V : Type} (capacity : Int) (hcap : 1 ≤ capacity)
    (ops : List (Call V)) (key : String) (value : V)
    (hnew : ((lru.run capacity ops).Get key).1 = none)
    (hfull : (lru.run capacity ops).Len = capacity) :
    ∃ victim : String,
      ((lru.run capacity ops).Get victim).1.isSome = true ∧
      (∀ k, k ≠ victim → ((lru.run capacity ops).Get k).1.isSome = true →
        lru.lastTouch capacity ops victim < lru.lastTouch capacity ops k) ∧
      (((lru.run capacity ops).Set key value).Get victim).1 = none ∧
      (∀ k, k ≠ victim → k ≠ key →
        (((lru.run capacity ops).Set key value).Get k).1 = ((lru.run capacity ops).Get k).1) ∧
      (((lru.run capacity ops).Set key value).Get key).1 = some value ∧
      ((lru.run capacity ops).Set key value).Len = capacity := by
  have h := lru.inv_run capacity hcap ops
  have hc := lru.run_capacity capacity ops
  generalize lru.run capacity ops = c at h hc hnew hfull ⊢
  rw [lru.LRUCache.Get_fst, GoMap.get_eq_none_iff] at hnew
  have hlen : c.BaseCache.Data.len ≥ c.BaseCache.Capacity := by
    rw [hc]
    exact le_of_eq hfull.symm
  obtain ⟨oldest, hlast, hsplit, hnot, hold⟩ := h.exists_last hlen
  have hne : oldest ≠ key := fun he => hnew (he ▸ hold)
  have hkdel : key ∉ (c.BaseCache.Data.delete oldest).keys := fun hm =>
    hnew ((GoMap.mem_keys_delete _ _ _).1 hm).2
  refine ⟨oldest, ?_, ?_, ?_, ?_, ?_, ?_⟩
  · rw [lru.LRUCache.Get_fst]
    exact (GoMap.mem_keys_iff _ _).1 hold
  · intro k hk hstored
    rw [lru.LRUCache.Get_fst, ← GoMap.mem_keys_iff, ← h.mem k, hsplit, List.mem_append,
      List.mem_singleton] at hstored
    have hkd : k ∈ c.order.dropLast := hstored.resolve_right hk
    have hs := h.sorted
    rw [hsplit, List.pairwise_append] at hs
    exact hs.2.2 k hkd oldest (List.mem_singleton_self _)
  · rw [lru.LRUCache.Get_fst, lru.LRUCache.Set_of_not_mem_full c hnew hlen hlast]
    show ((c.BaseCache.Data.delete oldest).set key value).get oldest = none
    rw [GoMap.get_set_ne _ hne, GoMap.get_delete_self]
  · intro k hk hkey
    rw [lru.LRUCache.Get_fst, lru.LRUCache.Get_fst,
      lru.LRUCache.Set_of_not_mem_full c hnew hlen hlast]
    show ((c.BaseCache.Data.delete oldest).set key value).get k = c.BaseCache.Data.get k
    rw [GoMap.get_set_ne _ hkey, GoMap.get_delete_ne _ hk]
  · rw [lru.LRUCache.Get_fst, lru.LRUCache.Set_of_not_mem_full c hnew hlen hlast]
    show ((c.BaseCache.Data.delete oldest).set key value).get key = some value
    exact GoMap.get_set_self _ _ _
  · rw [lru.LRUCache.Set_of_not_mem_full c hnew hlen hlast]
    show (((c.BaseCache.Data.delete oldest).set key value).length : Int) = capacity
    have h1 := GoMap.length_delete_of_nodup _ h.nodupKeys hold
    have h2 : ((c.BaseCache.Data.delete oldest).set key value).length
        = (c.BaseCache.Data.delete oldest).length + 1 := by
      rw [← GoMap.length_keys, GoMap.keys_set_of_not_mem _ hkdel]
      simp [GoMap.length_keys]
    have h3 : (c.BaseCache.Data.length : Int) = capacity := hfull
    omega

/-- Witness of C1 on the history of `TestLRUCache_EvictionOrder`: capacity 2, calls
`Set("a", 1)`, `Set("b", 2)`, `Get("a")`, then `Set("c", 3)`, which evicts `"b"`. -/
theorem lru_set_evicts_least_recently_touched_witness :
    (1 : Int) ≤ 2 ∧
    ((lru.run 2 [Call.set "a" 1, Call.set "b" 2, Call.get "a"]).Get "c").1 = none ∧
    (lru.run 2 [Call.set "a" 1, Call.set "b" 2, Call.get "a"]).Len = 2 ∧
    (((lru.run 2 [Call.set "a" 1, Call.set "b" 2, Call.get "a"]).Set "c" 3).Get "b").1 = none ∧
    ∃ victim : String,
      ((lru.run 2 [Call.set "a" 1, Call.set "b" 2, Call.get "a"]).Get victim).1.isSome = true ∧
      (∀ k, k ≠ victim →
        ((lru.run 2 [Call.set "a" 1, Call.set "b" 2, Call.get "a"]).Get k).1.isSome = true →
        lru.lastTouch 2 [Call.set "a" 1, Call.set "b" 2, Call.get "a"] victim
          < lru.lastTouch 2 [Call.set "a" 1, Call.set "b" 2, Call.get "a"] k) ∧
      (((lru.run 2 [Call.set "a" 1, Call.set "b" 2, Call.get "a"]).Set "c" 3).Get victim).1
        = none ∧
      (∀ k, k ≠ victim → k ≠ "c" →
        (((lru.run 2 [Call.set "a" 1, Call.set "b" 2, Call.get "a"]).Set "c" 3).Get k).1
          = ((lru.run 2 [Call.set "a" 1, Call.set "b" 2, Call.get "a"]).Get k).1) ∧
      (((lru.run 2 [Call.set "a" 1, Call.set "b" 2, Call.get "a"]).Set "c" 3).Get "c").1
        = some 3 ∧
      ((lru.run 2 [Call.set "a" 1, Call.set "b" 2, Call.get "a"]).Set "c" 3).Len = 2 :=
  ⟨by decide, by decide, by decide, by decide,
    lru_set_evicts_least_recently_touched 2 (by decide)
      [Call.set "a" 1, Call.set "b" 2, Call.get "a"] "c" 3 (by decide) (by decide)⟩

/-- C8: in an LRU cache of capacity at least 1 that starts empty, after each call of every
finite sequence of Set and Get calls the number of stored entries is at most the capacity. -/
theorem lru_len_le_capacity {V : Type} (capacity : Int) (hcap : 1 ≤ capacity)
    (ops : List (Call V)) (n : Nat) :
    (lru.run capacity (ops.take n)).Len ≤ capacity := by
  have h := (lru.inv_run capacity hcap (ops.take n)).len
  rw [lru.run_capacity] at h
  exact h

/-- Witness of C8: capacity 2 and four calls that insert three distinct keys. -/
theorem lru_len_le_capacity_witness :
    (1 : Int) ≤ 2 ∧
    (lru.run 2 (([Call.set "a" 1, Call.set "b" 2, Call.get "a", Call.set "c" 3]).take 4)).Len
      ≤ 2 :=
  ⟨by decide,
    lru_len_le_capacity 2 (by decide)
      [Call.set "a" 1, Call.set "b" 2, Call.get "a", Call.set "c" 3] 4⟩

/-- C2, at an input where the code departs from it: capacity 2 and the calls `Set("a", 1)`,
`Set("", 2)`, `Get("a")`.  The cache then holds 2 entries, the empty key has the strictly
smallest frequency (1 against 2) and `"c"` is not stored; `Set("c", 3)` removes no key: the
empty key and `"a"` are still retrieved and the cache holds 3 entries. -/
theorem lfu_set_keeps_least_frequent_empty_key :
    (lfu.run 2 [Call.set "a" 1, Call.set "" 2, Call.get "a"]).Len = 2 ∧
    (lfu.run 2 [Call.set "a" 1, Call.set "" 2, Call.get "a"]).freq.get "" = some 1 ∧
    (lfu.run 2 [Call.set "a" 1, Call.set "" 2, Call.get "a"]).freq.get "a" = some 2 ∧
    ((lfu.run 2 [Call.set "a" 1, Call.set "" 2, Call.get "a"]).Get "c").1 = none ∧
    (((lfu.run 2 [Call.set "a" 1, Call.set "" 2, Call.get "a"]).Set "c" 3).Get "").1 = some 2 ∧
    (((lfu.run 2 [Call.set "a" 1, Call.set "" 2, Call.get "a"]).Set "c" 3).Get "a").1 = some 1 ∧
    ((lfu.run 2 [Call.set "a" 1, Call.set "" 2, Call.get "a"]).Set "c" 3).Len = 3 := by
  decide

/-- C3, at an input where the code departs from it: capacity 2, duration 10, `Set("", 1)` at
instant 0 and `Set("b", 2)` at instant 1.  The cache then holds 2 entries, the empty key expires
first (at 10 against 11) and `"c"` is not stored; `Set("c", 3)` at instant 2 removes no key:
the empty key is still in the storage map and in the expiry index, and the cache holds 3
entries. -/
theorem timebased_set_keeps_earliest_empty_key :
    (((timebased.NewTimeBasedCache 2 10 : timebased.TimeBasedCache Nat).Set 0 0 "" 1).Set
      1 1 "b" 2).Len = 2 ∧
    ((((timebased.NewTimeBasedCache 2 10 : timebased.TimeBasedCache Nat).Set 0 0 "" 1).Set
      1 1 "b" 2).ttlMap.get "").map timebased.item.expiration = some 10 ∧
    ((((timebased.NewTimeBasedCache 2 10 : timebased.TimeBasedCache Nat).Set 0 0 "" 1).Set
      1 1 "b" 2).ttlMap.get "b").map timebased.item.expiration = some 11 ∧
    (((timebased.NewTimeBasedCache 2 10 : timebased.TimeBasedCache Nat).Set 0 0 "" 1).Set
      1 1 "b" 2).ttlMap.keys = ["", "b"] ∧
    ((((timebased.NewTimeBasedCache 2 10 : timebased.TimeBasedCache Nat).Set 0 0 "" 1).Set
      1 1 "b" 2).Set 2 2 "c" 3).BaseCache.Data.keys = ["", "b", "c"] ∧
    ((((timebased.NewTimeBasedCache 2 10 : timebased.TimeBasedCache Nat).Set 0 0 "" 1).Set
      1 1 "b" 2).Set 2 2 "c" 3).ttlMap.keys = ["", "b", "c"] ∧
    ((((timebased.NewTimeBasedCache 2 10 : timebased.TimeBasedCache Nat).Set 0 0 "" 1).Set
      1 1 "b" 2).Set 2 2 "c" 3).Len = 3 := by
  decide

/-- The eviction of the time-based cache also skips every entry written at the clock reading
at which `evict` runs: capacity 1, duration 10, `Set("a", 1)` and `Set("b", 2)` at the same
instant 0 leave 2 entries. -/
theorem timebased_set_same_instant_keeps_all :
    ((timebased.NewTimeBasedCache 1 10 : timebased.TimeBasedCache Nat).Set 0 0 "a" 1).Len = 1 ∧
    (((timebased.NewTimeBasedCache 1 10 : timebased.TimeBasedCache Nat).Set 0 0 "a" 1).Set
      0 0 "b" 2).BaseCache.Data.keys = ["a", "b"] ∧
    (((timebased.NewTimeBasedCache 1 10 : timebased.TimeBasedCache Nat).Set 0 0 "a" 1).Set
      0 0 "b" 2).Len = 2 := by
  decide

/-- C4, at an input where the code departs from it: capacity 2, duration 10, `Set("a", 1)` at
instant 0.  A `Get("a")` at instant 9 returns the value and leaves the cache unchanged; a
`Get("a")` at instant 10 or 11 does not return not-found, it ends in the run-time error
`RUnlock of unlocked RWMutex`. -/
theorem timebased_get_expired_is_fatal :
    ((timebased.NewTimeBasedCache 2 10 : timebased.TimeBasedCache Nat).Set 0 0 "a" 1).Get 9 "a"
      = .ok (some 1,
          (timebased.NewTimeBasedCache 2 10 : timebased.TimeBasedCache Nat).Set 0 0 "a" 1) ∧
    ((timebased.NewTimeBasedCache 2 10 : timebased.TimeBasedCache Nat).Set 0 0 "a" 1).Get 10 "a"
      = .error sync.Fault.rUnlockOfUnlocked ∧
    ((timebased.NewTimeBasedCache 2 10 : timebased.TimeBasedCache Nat).Set 0 0 "a" 1).Get 11 "a"
      = .error sync.Fault.rUnlockOfUnlocked :=
  ⟨rfl, rfl, rfl⟩

/-- C5, at an input where the code departs from it: time-based cache of capacity 2 and
duration 10, `Set("a", 1)` at instant 0, then `Clear()`.  `Len()` is 0, yet the expiry index
still holds `"a"` and `Get("a")` at instant 1 returns the value 1 as found. -/
theorem timebased_get_after_clear_finds_key :
    (((timebased.NewTimeBasedCache 2 10 : timebased.TimeBasedCache Nat).Set
      0 0 "a" 1).Clear).Len = 0 ∧
    (((timebased.NewTimeBasedCache 2 10 : timebased.TimeBasedCache Nat).Set
      0 0 "a" 1).Clear).ttlMap.keys = ["a"] ∧
    Except.map Prod.fst
      ((((timebased.NewTimeBasedCache 2 10 : timebased.TimeBasedCache Nat).Set
        0 0 "a" 1).Clear).Get 1 "a") = .ok (some 1) :=
  ⟨rfl, rfl, rfl⟩

/-- C6, at an input where the code departs from it: time-based cache of capacity 2 and
duration 10, `Set("a", 1)` at instant 0, then `Delete("a")`.  The storage map is empty, yet
`Get("a")` at instant 1, before the expiration instant 10, returns the value 1 as found. -/
theorem timebased_get_after_delete_finds_key :
    (((timebased.NewTimeBasedCache 2 10 : timebased.TimeBasedCache Nat).Set
      0 0 "a" 1).Delete "a").BaseCache.Data.keys = [] ∧
    ((((timebased.NewTimeBasedCache 2 10 : timebased.TimeBasedCache Nat).Set
      0 0 "a" 1).Delete "a").ttlMap.get "a").map timebased.item.expiration = some 10 ∧
    Except.map Prod.fst
      ((((timebased.NewTimeBasedCache 2 10 : timebased.TimeBasedCache Nat).Set
        0 0 "a" 1).Delete "a").Get 1 "a") = .ok (some 1) :=
  ⟨rfl, rfl, rfl⟩

/-- C7: `New` returns an error exactly when the strategy is `TimeBased` with a duration that
is not positive, or the strategy is none of `LRU`, `LFU`, `TimeBased`; otherwise it returns the
new cache of the requested policy, and every cache it returns has the given capacity, whatever
integer that is. -/
theorem New_error_iff {V : Type} (strategy capacity expirationDuration : Int) :
    ((∃ msg, (cache.New strategy capacity expirationDuration : Except String (cache.Cache V))
        = .error msg) ↔
      (strategy = cache.TimeBased ∧ expirationDuration ≤ 0) ∨
      (strategy ≠ cache.LRU ∧ strategy ≠ cache.LFU ∧ strategy ≠ cache.TimeBased)) ∧
    (strategy = cache.LRU →
      (cache.New strategy capacity expirationDuration : Except String (cache.Cache V))
        = .ok (.lru (lru.NewLRUCache capacity))) ∧
    (strategy = cache.LFU →
      (cache.New strategy capacity expirationDuration : Except String (cache.Cache V))
        = .ok (.lfu (lfu.NewLFUCache capacity))) ∧
    (strategy = cache.TimeBased → 0 < expirationDuration →
      (cache.New strategy capacity expirationDuration : Except String (cache.Cache V))
        = .ok (.timeBased (timebased.NewTimeBasedCache capacity expirationDuration))) ∧
    (∀ c : cache.Cache V,
      cache.New strategy capacity expirationDuration = .ok c → c.Capacity = capacity) := by
  unfold cache.New
  by_cases h0 : strategy = cache.LRU
  · subst h0
    simp [cache.LRU, cache.LFU, cache.TimeBased, cache.Cache.Capacity, lru.NewLRUCache,
      base.NewBaseCache]
  · by_cases h1 : strategy = cache.LFU
    · subst h1
      simp [cache.LRU, cache.LFU, cache.TimeBased, cache.Cache.Capacity, lfu.NewLFUCache,
        base.NewBaseCache]
    · by_cases h2 : strategy = cache.TimeBased
      · subst h2
        by_cases hd : expirationDuration ≤ 0
        · simp [cache.LRU, cache.LFU, cache.TimeBased, hd, not_lt.2 hd]
        · simp [cache.LRU, cache.LFU, cache.TimeBased, hd, not_le.1 hd, cache.Cache.Capacity,
            timebased.NewTimeBasedCache, base.NewBaseCache]
      · simp [h0, h1, h2]

/-- Witness of C7: the three strategies with capacity -3, the time-based strategy with
durations 0 and 1, and the unknown strategy 7. -/
theorem New_error_iff_witness :
    (cache.New 0 (-3) 0 : Except String (cache.Cache Nat)) = .ok (.lru (lru.NewLRUCache (-3))) ∧
    (cache.New 1 0 0 : Except String (cache.Cache Nat)) = .ok (.lfu (lfu.NewLFUCache 0)) ∧
    (cache.New 2 5 1 : Except String (cache.Cache Nat))
      = .ok (.timeBased (timebased.NewTimeBasedCache 5 1)) ∧
    (cache.New 2 5 0 : Except String (cache.Cache Nat))
      = .error "expiration duration must be positive for TimeBased strategy" ∧
    (cache.New 7 5 1 : Except String (cache.Cache Nat))
      = .error "unknown cache strategy: 7" ∧
    (∀ c : cache.Cache Nat, cache.New 0 (-3) 0 = .ok c → c.Capacity = -3) :=
  ⟨rfl, rfl, rfl, rfl, by rfl, (New_error_iff 0 (-3) 0).2.2.2.2⟩

/-- C9, at an input where the code departs from it: LRU cache of capacity 2 and the calls
`Set("a", 1)`, `Set("b", 2)`, `Delete("a")`, `Set("c", 3)`, `Set("d", 4)`.  `Delete` leaves
`"a"` in the recency list, the last `Set` evicts that stale key, and `Len()` is 3. -/
theorem lru_len_exceeds_capacity_after_delete :
    ((((lru.NewLRUCache 2 : lru.LRUCache Nat).Set "a" 1).Set "b" 2).Delete "a").order
      = ["b", "a"] ∧
    ((((((lru.NewLRUCache 2 : lru.LRUCache Nat).Set "a" 1).Set "b" 2).Delete "a").Set
      "c" 3).Set "d" 4).BaseCache.Data.keys = ["b", "c", "d"] ∧
    ((((((lru.NewLRUCache 2 : lru.LRUCache Nat).Set "a" 1).Set "b" 2).Delete "a").Set
      "c" 3).Set "d" 4).BaseCache.Capacity = 2 ∧
    ((((((lru.NewLRUCache 2 : lru.LRUCache Nat).Set "a" 1).Set "b" 2).Delete "a").Set
      "c" 3).Set "d" 4).Len = 3 := by
  decide

/-- C10: in every LRU cache and every LFU cache, a Set of a key that is already stored leaves
the stored keys and their number unchanged, also when the cache is at capacity, leaves the
value of every other key unchanged, and makes a following Get of the key return the new
value. -/
theorem set_of_stored_key_evicts_nothing {V : Type} (c : lru.LRUCache V) (d : lfu.LFUCache V)
    (k k' : String) (v v' : V)
    (hc : (c.Get k).1.isSome = true) (hd : (d.Get k').1.isSome = true) :
    ((c.Set k v).BaseCache.Data.keys = c.BaseCache.Data.keys ∧
      (c.Set k v).Len = c.Len ∧
      (∀ x, x ≠ k → ((c.Set k v).Get x).1 = (c.Get x).1) ∧
      ((c.Set k v).Get k).1 = some v) ∧
    ((d.Set k' v').BaseCache.Data.keys = d.BaseCache.Data.keys ∧
      (d.Set k' v').Len = d.Len ∧
      (∀ x, x ≠ k' → ((d.Set k' v').Get x).1 = (d.Get x).1) ∧
      ((d.Set k' v').Get k').1 = some v') := by
  rw [lru.LRUCache.Get_fst, ← GoMap.mem_keys_iff] at hc
  rw [lfu.LFUCache.Get_fst_lfu, ← GoMap.mem_keys_iff] at hd
  refine ⟨⟨?_, ?_, ?_, ?_⟩, ⟨?_, ?_, ?_, ?_⟩⟩
  · rw [lru.LRUCache.Set_of_mem c hc]
    exact GoMap.keys_set_of_mem _ hc v
  · rw [lru.LRUCache.Set_of_mem c hc]
    show ((c.BaseCache.Data.set k v).length : Int) = (c.BaseCache.Data.length : Int)
    rw [← GoMap.length_keys, GoMap.keys_set_of_mem _ hc, GoMap.length_keys]
  · intro x hx
    rw [lru.LRUCache.Get_fst, lru.LRUCache.Get_fst, lru.LRUCache.Set_of_mem c hc]
    exact GoMap.get_set_ne _ hx v
  · rw [lru.LRUCache.Get_fst, lru.LRUCache.Set_of_mem c hc]
    exact GoMap.get_set_self _ k v
  · rw [lfu.LFUCache.Set_of_mem_lfu d hd]
    exact GoMap.keys_set_of_mem _ hd v'
  · rw [lfu.LFUCache.Set_of_mem_lfu d hd]
    show ((d.BaseCache.Data.set k' v').length : Int) = (d.BaseCache.Data.length : Int)
    rw [← GoMap.length_keys, GoMap.keys_set_of_mem _ hd, GoMap.length_keys]
  · intro x hx
    rw [lfu.LFUCache.Get_fst_lfu, lfu.LFUCache.Get_fst_lfu, lfu.LFUCache.Set_of_mem_lfu d hd]
    exact GoMap.get_set_ne _ hx v'
  · rw [lfu.LFUCache.Get_fst_lfu, lfu.LFUCache.Set_of_mem_lfu d hd]
    exact GoMap.get_set_self _ k' v'

/-- Witness of C10 on the histories of `TestLRUCache_UpdateExistingKey` and
`TestLFUCache_UpdateExistingKey`: capacity 2, `Set("a", 1)`, `Set("b", 2)`, then
`Set("a", 3)` on the full cache. -/
theorem set_of_stored_key_evicts_nothing_witness :
    ((lru.run 2 [Call.set "a" 1, Call.set "b" 2]).Get "a").1.isSome = true ∧
    ((lfu.run 2 [Call.set "a" 1, Call.set "b" 2]).Get "a").1.isSome = true ∧
    (lru.run 2 [Call.set "a" 1, Call.set "b" 2]).Len = 2 ∧
    (lfu.run 2 [Call.set "a" 1, Call.set "b" 2]).Len = 2 ∧
    (((lru.run 2 [Call.set "a" 1, Call.set "b" 2]).Set "a" 3).BaseCache.Data.keys
        = (lru.run 2 [Call.set "a" 1, Call.set "b" 2]).BaseCache.Data.keys ∧
      ((lru.run 2 [Call.set "a" 1, Call.set "b" 2]).Set "a" 3).Len
        = (lru.run 2 [Call.set "a" 1, Call.set "b" 2]).Len ∧
      (∀ x, x ≠ "a" →
        (((lru.run 2 [Call.set "a" 1, Call.set "b" 2]).Set "a" 3).Get x).1
          = ((lru.run 2 [Call.set "a" 1, Call.set "b" 2]).Get x).1) ∧
      (((lru.run 2 [Call.set "a" 1, Call.set "b" 2]).Set "a" 3).Get "a").1 = some 3) ∧
    (((lfu.run 2 [Call.set "a" 1, Call.set "b" 2]).Set "a" 3).BaseCache.Data.keys
        = (lfu.run 2 [Call.set "a" 1, Call.set "b" 2]).BaseCache.Data.keys ∧
      ((lfu.run 2 [Call.set "a" 1, Call.set "b" 2]).Set "a" 3).Len
        = (lfu.run 2 [Call.set "a" 1, Call.set "b" 2]).Len ∧
      (∀ x, x ≠ "a" →
        (((lfu.run 2 [Call.set "a" 1, Call.set "b" 2]).Set "a" 3).Get x).1
          = ((lfu.run 2 [Call.set "a" 1, Call.set "b" 2]).Get x).1) ∧
      (((lfu.run 2 [Call.set "a" 1, Call.set "b" 2]).Set "a" 3).Get "a").1 = some 3) :=
  ⟨by decide, by decide, by decide, by decide,
    set_of_stored_key_evicts_nothing (lru.run 2 [Call.set "a" 1, Call.set "b" 2])
      (lfu.run 2 [Call.set "a" 1, Call.set "b" 2]) "a" "a" 3 3 (by decide) (by decide)⟩

/-- C11, at an input where the code departs from it: time-based cache of capacity 2 and
duration 10, `Set("a", 1)` at instant 0 and `Set("b", 2)` at instant 1.  The cache holds 2
entries and `"b"` is stored; `Set("b", 3)` at instant 2 calls `evict`, which removes the other
key `"a"` from the storage map and the expiry index, and one entry is left. -/
theorem timebased_set_of_stored_key_evicts_other :
    (((timebased.NewTimeBasedCache 2 10 : timebased.TimeBasedCache Nat).Set 0 0 "a" 1).Set
      1 1 "b" 2).BaseCache.Data.keys = ["a", "b"] ∧
    (((timebased.NewTimeBasedCache 2 10 : timebased.TimeBasedCache Nat).Set 0 0 "a" 1).Set
      1 1 "b" 2).Len = 2 ∧
    ((((timebased.NewTimeBasedCache 2 10 : timebased.TimeBasedCache Nat).Set 0 0 "a" 1).Set
      1 1 "b" 2).Set 2 2 "b" 3).BaseCache.Data.get "a" = none ∧
    ((((timebased.NewTimeBasedCache 2 10 : timebased.TimeBasedCache Nat).Set 0 0 "a" 1).Set
      1 1 "b" 2).Set 2 2 "b" 3).BaseCache.Data.keys = ["b"] ∧
    ((((timebased.NewTimeBasedCache 2 10 : timebased.TimeBasedCache Nat).Set 0 0 "a" 1).Set
      1 1 "b" 2).Set 2 2 "b" 3).ttlMap.keys = ["b"] := by
  decide

/-- C12: after `Set(k, v)` at instant `now` on any time-based cache, for a key that is new or
already stored and whether or not an eviction took place, the expiry index holds for `k` the
value `v` with the expiration `now + D`, the storage map holds `v` for `k`, and `D` is the
duration of the cache as before. -/
theorem timebased_set_records_expiration {V : Type} (c : timebased.TimeBasedCache V)
    (evictNow now : Int) (k : String) (v : V) :
    (c.Set evictNow now k v).ttlMap.get k
      = some { value := v, expiration := now + c.expirationDuration } ∧
    (c.Set evictNow now k v).BaseCache.Data.get k = some v ∧
    (c.Set evictNow now k v).expirationDuration = c.expirationDuration := by
  refine ⟨?_, ?_, (timebased.TimeBasedCache.Set_fields c evictNow now k v).1⟩
  · simp only [timebased.TimeBasedCache.Set]
    split
    · rw [(timebased.TimeBasedCache.evict_fields c evictNow).1]
      exact GoMap.get_set_self _ _ _
    · exact GoMap.get_set_self _ _ _
  · simp only [timebased.TimeBasedCache.Set]
    exact GoMap.get_set_self _ _ _

/-- Witness of C12: an update of the stored key `"a"` at instant 7 in a cache of duration 10
moves its expiration from 10 to 17. -/
theorem timebased_set_records_expiration_witness :
    (((timebased.NewTimeBasedCache 2 10 : timebased.TimeBasedCache Nat).Set 0 0 "a" 1).ttlMap.get
      "a").map timebased.item.expiration = some 10 ∧
    ((((timebased.NewTimeBasedCache 2 10 : timebased.TimeBasedCache Nat).Set 0 0 "a" 1).Set
      7 7 "a" 2).ttlMap.get "a").map timebased.item.expiration = some 17 ∧
    (((timebased.NewTimeBasedCache 2 10 : timebased.TimeBasedCache Nat).Set 0 0 "a" 1).Set
      7 7 "a" 2).ttlMap.get "a"
      = some { value := 2,
               expiration := 7 + ((timebased.NewTimeBasedCache 2 10 :
                 timebased.TimeBasedCache Nat).Set 0 0 "a" 1).expirationDuration } :=
  ⟨by decide, by decide,
    (timebased_set_records_expiration
      ((timebased.NewTimeBasedCache 2 10 : timebased.TimeBasedCache Nat).Set 0 0 "a" 1)
      7 7 "a" 2).1⟩

/-- C13, where the code departs from it: on a time-based cache whose mutex is free, every Get
of a key whose expiry record is present and not in the future ends in the run-time error
`RUnlock of unlocked RWMutex` instead of returning not-found.  The lock operations of that
branch are `RLock`, `RUnlock`, `Lock`, then the deferred `Unlock` and the deferred `RUnlock`,
and the last one finds the mutex free. -/
theorem timebased_get_expired_releases_unheld_lock {V : Type} (c : timebased.TimeBasedCache V)
    (now : Int) (key : String) (it : timebased.item V)
    (hfree : c.BaseCache.Mutex = sync.RWMutex.free)
    (hrec : c.ttlMap.get key = some it) (hexp : it.expiration ≤ now) :
    c.Get now key = .error sync.Fault.rUnlockOfUnlocked ∧
    sync.RWMutex.free.RLock = .ok { readers := 1, writer := false } ∧
    sync.RWMutex.RUnlock { readers := 1, writer := false } = .ok sync.RWMutex.free ∧
    sync.RWMutex.free.Lock = .ok { readers := 0, writer := true } ∧
    sync.RWMutex.Unlock { readers := 0, writer := true } = .ok sync.RWMutex.free ∧
    sync.RWMutex.free.RUnlock = .error sync.Fault.rUnlockOfUnlocked :=
  ⟨timebased.TimeBasedCache.Get_of_expired c now key it hfree hrec (not_lt.2 hexp),
    rfl, rfl, rfl, rfl, rfl⟩

/-- Witness of C13: capacity 1, duration 5, `Set("k", 7)` at instant 0 and `Get("k")` at
instant 5. -/
theorem timebased_get_expired_releases_unheld_lock_witness :
    ((timebased.NewTimeBasedCache 1 5 : timebased.TimeBasedCache Nat).Set
      0 0 "k" 7).BaseCache.Mutex = sync.RWMutex.free ∧
    ((timebased.NewTimeBasedCache 1 5 : timebased.TimeBasedCache Nat).Set
      0 0 "k" 7).ttlMap.get "k" = some { value := 7, expiration := 5 } ∧
    ((timebased.NewTimeBasedCache 1 5 : timebased.TimeBasedCache Nat).Set 0 0 "k" 7).Get 5 "k"
      = .error sync.Fault.rUnlockOfUnlocked :=
  ⟨rfl, rfl,
    (timebased_get_expired_releases_unheld_lock
      ((timebased.NewTimeBasedCache 1 5 : timebased.TimeBasedCache Nat).Set 0 0 "k" 7)
      5 "k" { value := 7, expiration := 5 } rfl rfl (by decide)).1⟩

/-- C14: in every state of a time-based cache (the stop channel is closed exactly when
`stopOnce` is done), `StopCleanup` fails neither on a first nor on a second call, the second
call changes nothing, and the cache after them has the entries, the expiry index and the
duration it had, with the stop channel closed. -/
theorem StopCleanup_twice_eq_once {V : Type} (c : timebased.TimeBasedCache V)
    (hstop : c.stopChan.closed = c.stopOnce.done) :
    ∃ c1 : timebased.TimeBasedCache V,
      c.StopCleanup = .ok c1 ∧
      c1.StopCleanup = .ok c1 ∧
      (c.StopCleanup >>= fun c2 => c2.StopCleanup) = c.StopCleanup ∧
      c1.BaseCache = c.BaseCache ∧
      c1.ttlMap = c.ttlMap ∧
      c1.expirationDuration = c.expirationDuration ∧
      c1.stopChan.closed = true ∧
      c1.stopOnce.done = true := by
  by_cases hd : c.stopOnce.done = true
  · have hone : c.StopCleanup = .ok c := by
      simp [timebased.TimeBasedCache.StopCleanup, hd]
    refine ⟨c, hone, hone, ?_, rfl, rfl, rfl, hstop.trans hd, hd⟩
    rw [hone]
    exact hone
  · have hcl : c.stopChan.closed = false := by
      rw [hstop]
      simpa using hd
    have hone : c.StopCleanup
        = .ok { c with stopChan := { closed := true }, stopOnce := { done := true } } := by
      simp [timebased.TimeBasedCache.StopCleanup, Chan.close, hd, hcl, bind, Except.bind, pure,
        Except.pure]
    have htwo : timebased.TimeBasedCache.StopCleanup
        { c with stopChan := { closed := true }, stopOnce := { done := true } }
        = .ok { c with stopChan := { closed := true }, stopOnce := { done := true } } := by
      simp [timebased.TimeBasedCache.StopCleanup]
    refine ⟨_, hone, htwo, ?_, rfl, rfl, rfl, rfl, rfl⟩
    rw [hone]
    exact htwo

/-- Witness of C14 on the calls of `TestTimeBasedCache_StopCleanup`: a new cache of capacity 2
with two entries, stopped twice. -/
theorem StopCleanup_twice_eq_once_witness :
    (((timebased.NewTimeBasedCache 2 10 : timebased.TimeBasedCache Nat).Set 0 0 "a" 1).Set
      1 1 "b" 2).stopChan.closed
      = (((timebased.NewTimeBasedCache 2 10 : timebased.TimeBasedCache Nat).Set 0 0 "a" 1).Set
          1 1 "b" 2).stopOnce.done ∧
    ∃ c1 : timebased.TimeBasedCache Nat,
      (((timebased.NewTimeBasedCache 2 10 : timebased.TimeBasedCache Nat).Set 0 0 "a" 1).Set
        1 1 "b" 2).StopCleanup = .ok c1 ∧
      c1.StopCleanup = .ok c1 ∧
      ((((timebased.NewTimeBasedCache 2 10 : timebased.TimeBasedCache Nat).Set 0 0 "a" 1).Set
          1 1 "b" 2).StopCleanup >>= fun c2 => c2.StopCleanup)
        = (((timebased.NewTimeBasedCache 2 10 : timebased.TimeBasedCache Nat).Set 0 0 "a" 1).Set
            1 1 "b" 2).StopCleanup ∧
      c1.BaseCache = (((timebased.NewTimeBasedCache 2 10 : timebased.TimeBasedCache Nat).Set
        0 0 "a" 1).Set 1 1 "b" 2).BaseCache ∧
      c1.ttlMap = (((timebased.NewTimeBasedCache 2 10 : timebased.TimeBasedCache Nat).Set
        0 0 "a" 1).Set 1 1 "b" 2).ttlMap ∧
      c1.expirationDuration = (((timebased.NewTimeBasedCache 2 10 :
        timebased.TimeBasedCache Nat).Set 0 0 "a" 1).Set 1 1 "b" 2).expirationDuration ∧
      c1.stopChan.closed = true ∧
      c1.stopOnce.done = true :=
  ⟨rfl,
    StopCleanup_twice_eq_once
      (((timebased.NewTimeBasedCache 2 10 : timebased.TimeBasedCache Nat).Set 0 0 "a" 1).Set
        1 1 "b" 2) rfl⟩

/-- C15: the storage core is a finite map.  For a store whose map holds each key once, as
every Go map does, a key `k`, another key `k'` and a value `v`: Get of `k` after Set of `k`
to `v` finds `v`; Get of `k` after Delete of `k` finds nothing; Get of `k'` is unchanged by
that Set and by that Delete; Delete of an absent key leaves the store as it is; `Len` is the
number of elements of the set of keys that Get finds; after Clear `Len` is 0. -/
theorem base_cache_is_finite_map {V : Type} (c : base.BaseCache V)
    (hmap : c.Data.keys.Nodup) (k k' : String) (hne : k' ≠ k) (v : V) :
    (c.Set k v).Get k = some v ∧
    (c.Delete k).Get k = none ∧
    (c.Set k v).Get k' = c.Get k' ∧
    (c.Delete k).Get k' = c.Get k' ∧
    (c.Get k = none → c.Delete k = c) ∧
    (∃ S : Finset String,
      (∀ x, x ∈ S ↔ (c.Get x).isSome = true) ∧ c.Len = (S.card : Int)) ∧
    c.Clear.Len = 0 := by
  refine ⟨GoMap.get_set_self _ _ _, GoMap.get_delete_self _ _, GoMap.get_set_ne _ hne v,
    GoMap.get_delete_ne _ hne, ?_, ?_, rfl⟩
  · intro habs
    have hk : k ∉ c.Data.keys := (GoMap.get_eq_none_iff _ _).1 habs
    show ({ c with Data := c.Data.delete k } : base.BaseCache V) = c
    rw [GoMap.delete_of_not_mem _ hk]
  · refine ⟨c.Data.keys.toFinset, ?_, ?_⟩
    · intro x
      rw [List.mem_toFinset]
      exact GoMap.mem_keys_iff _ _
    · show ((c.Data.length : Nat) : Int) = _
      rw [List.toFinset_card_of_nodup hmap, GoMap.length_keys]

/-- Witness of C15: the store after `Set("a", 1)` and `Set("b", 2)`, with `k = "a"`,
`k' = "b"` and `v = 5`. -/
theorem base_cache_is_finite_map_witness :
    (((base.NewBaseCache 2 : base.BaseCache Nat).Set "a" 1).Set "b" 2).Data.keys.Nodup ∧
    "b" ≠ "a" ∧
    ((((base.NewBaseCache 2 : base.BaseCache Nat).Set "a" 1).Set "b" 2).Set "a" 5).Get "a"
      = some 5 ∧
    ((((base.NewBaseCache 2 : base.BaseCache Nat).Set "a" 1).Set "b" 2).Delete "a").Get "a"
      = none ∧
    (((base.NewBaseCache 2 : base.BaseCache Nat).Set "a" 1).Set "b" 2).Len = 2 ∧
    ((((base.NewBaseCache 2 : base.BaseCache Nat).Set "a" 1).Set "b" 2).Set "a" 5).Get "b"
      = (((base.NewBaseCache 2 : base.BaseCache Nat).Set "a" 1).Set "b" 2).Get "b" :=
  ⟨by decide, by decide, by decide, by decide, by decide,
    (base_cache_is_finite_map (((base.NewBaseCache 2 : base.BaseCache Nat).Set "a" 1).Set "b" 2)
      (by decide) "a" "b" (by decide) 5).2.2.1⟩

/-- C16, at an input where the code departs from it: LFU cache of capacity 2, `Set("a", 1)`,
then `Delete("a")` or `Clear()`.  The storage map is empty and the frequency map still holds
the record of `"a"`. -/
theorem lfu_freq_outlives_delete :
    (((lfu.NewLFUCache 2 : lfu.LFUCache Nat).Set "a" 1).Delete "a").BaseCache.Data.keys = [] ∧
    (((lfu.NewLFUCache 2 : lfu.LFUCache Nat).Set "a" 1).Delete "a").freq.keys = ["a"] ∧
    (((lfu.NewLFUCache 2 : lfu.LFUCache Nat).Set "a" 1).Delete "a").freq.get "a" = some 1 ∧
    (((lfu.NewLFUCache 2 : lfu.LFUCache Nat).Set "a" 1).Clear).BaseCache.Data.keys = [] ∧
    (((lfu.NewLFUCache 2 : lfu.LFUCache Nat).Set "a" 1).Clear).freq.keys = ["a"] := by
  decide

/-- C17, at an input where the code departs from it: time-based cache of capacity 2 and
duration 10, `Set("a", 1)` at instant 0, so that `"a"` expires at 10.  At instant 10 the sweep
keeps the entry, while `Get("a")` takes its expired branch (and ends in the run-time error of
that branch instead of returning the value).  At instant 9 both keep the entry and at instant
11 both take it for expired. -/
theorem timebased_sweep_and_get_differ_at_expiration :
    (((timebased.NewTimeBasedCache 2 10 : timebased.TimeBasedCache Nat).Set
      0 0 "a" 1).ttlMap.get "a").map timebased.item.expiration = some 10 ∧
    (((timebased.NewTimeBasedCache 2 10 : timebased.TimeBasedCache Nat).Set
      0 0 "a" 1).cleanupExpiredItems 10).ttlMap.keys = ["a"] ∧
    (((timebased.NewTimeBasedCache 2 10 : timebased.TimeBasedCache Nat).Set
      0 0 "a" 1).cleanupExpiredItems 10).BaseCache.Data.keys = ["a"] ∧
    ((timebased.NewTimeBasedCache 2 10 : timebased.TimeBasedCache Nat).Set
      0 0 "a" 1).Get 10 "a" = .error sync.Fault.rUnlockOfUnlocked ∧
    (((timebased.NewTimeBasedCache 2 10 : timebased.TimeBasedCache Nat).Set
      0 0 "a" 1).cleanupExpiredItems 9).ttlMap.keys = ["a"] ∧
    Except.map Prod.fst (((timebased.NewTimeBasedCache 2 10 : timebased.TimeBasedCache Nat).Set
      0 0 "a" 1).Get 9 "a") = .ok (some 1) ∧
    (((timebased.NewTimeBasedCache 2 10 : timebased.TimeBasedCache Nat).Set
      0 0 "a" 1).cleanupExpiredItems 11).ttlMap.keys = [] ∧
    (((timebased.NewTimeBasedCache 2 10 : timebased.TimeBasedCache Nat).Set
      0 0 "a" 1).cleanupExpiredItems 11).BaseCache.Data.keys = [] ∧
    ((timebased.NewTimeBasedCache 2 10 : timebased.TimeBasedCache Nat).Set
      0 0 "a" 1).Get 11 "a" = .error sync.Fault.rUnlockOfUnlocked :=
  ⟨rfl, rfl, rfl, rfl, rfl, rfl, rfl, rfl, rfl⟩

/-- C19, at an input where the code departs from it: LRU cache of capacity 2 after
`Set("a", 1)` and `Set("b", 2)`.  `Get("a")` finds the value and moves `"a"` to the front of the
recency list while the mutex is held by one reader and by no writer; in that state of the
mutex the `RLock` of a second Get succeeds, so two Gets can change the list at the same
time. -/
theorem lru_get_changes_order_under_read_lock :
    (((lru.NewLRUCache 2 : lru.LRUCache Nat).Set "a" 1).Set "b" 2).order = ["b", "a"] ∧
    Except.map (fun r => r.1)
      ((((lru.NewLRUCache 2 : lru.LRUCache Nat).Set "a" 1).Set "b" 2).GetLocked "a")
      = .ok (some 1) ∧
    Except.map (fun r => r.2.1.order)
      ((((lru.NewLRUCache 2 : lru.LRUCache Nat).Set "a" 1).Set "b" 2).GetLocked "a")
      = .ok ["a", "b"] ∧
    Except.map (fun r => r.2.2)
      ((((lru.NewLRUCache 2 : lru.LRUCache Nat).Set "a" 1).Set "b" 2).GetLocked "a")
      = .ok (some { readers := 1, writer := false }) ∧
    sync.RWMutex.RLock { readers := 1, writer := false }
      = .ok { readers := 2, writer := false } :=
  ⟨rfl, rfl, rfl, rfl, rfl⟩

/-- C20: in an LRU cache of any capacity that starts empty, after each call of every finite
sequence of Set and Get calls the recency list holds no key twice, a key is in the list exactly
when Get finds it in the storage map, and the length of the list is `Len()`. -/
theorem lru_order_matches_storage {V : Type} (capacity : Int) (ops : List (Call V)) (n : Nat) :
    (lru.run capacity (ops.take n)).order.Nodup ∧
    (∀ k, k ∈ (lru.run capacity (ops.take n)).order ↔
      ((lru.run capacity (ops.take n)).Get k).1.isSome = true) ∧
    ((lru.run capacity (ops.take n)).order.length : Int)
      = (lru.run capacity (ops.take n)).Len := by
  have h := lru.sync_run capacity (ops.take n)
  refine ⟨h.nodupOrder, ?_, ?_⟩
  · intro k
    rw [lru.LRUCache.Get_fst, ← GoMap.mem_keys_iff]
    exact h.mem k
  · have hp : (lru.run capacity (ops.take n)).order.Perm
        (lru.run capacity (ops.take n)).BaseCache.Data.keys :=
      (List.perm_ext_iff_of_nodup h.nodupOrder h.nodupKeys).2 h.mem
    show ((lru.run capacity (ops.take n)).order.length : Int)
      = (((lru.run capacity (ops.take n)).BaseCache.Data.length : Nat) : Int)
    rw [hp.length_eq, GoMap.length_keys]

/-- Witness of C20: capacity 0 and the calls `Set("a", 1)`, `Set("b", 2)`, `Get("b")`, after
which the list and the map both hold `"b"` alone. -/
theorem lru_order_matches_storage_witness :
    (lru.run 0 (([Call.set "a" 1, Call.set "b" 2, Call.get "b"]).take 3)).order = ["b"] ∧
    (lru.run 0 (([Call.set "a" 1, Call.set "b" 2, Call.get "b"]).take 3)).BaseCache.Data.keys
      = ["b"] ∧
    ((lru.run 0 (([Call.set "a" 1, Call.set "b" 2, Call.get "b"]).take 3)).order.length : Int)
      = (lru.run 0 (([Call.set "a" 1, Call.set "b" 2, Call.get "b"]).take 3)).Len :=
  ⟨by decide, by decide,
    (lru_order_matches_storage 0 [Call.set "a" 1, Call.set "b" 2, Call.get "b"] 3).2.2⟩

/-- C18 fails as stated: in the LFU cache of capacity 1, after `Set("a", 0)` and `2 ^ 63 - 2`
calls of `Get("a")` the key `"a"` is stored with the counter `2 ^ 63 - 1`, the largest `int`;
one more `Get("a")` hits and leaves the counter at `-2 ^ 63` instead of raising it by 1. -/
theorem lfu_counter_wraps_at_max_int :
    ((lfu.run 1 (Call.set "a" (0 : Nat) ::
      List.replicate (2 ^ 63 - 2) (Call.get "a"))).Get "a").1 = some 0 ∧
    (lfu.run 1 (Call.set "a" (0 : Nat) ::
      List.replicate (2 ^ 63 - 2) (Call.get "a"))).freq.get "a" = some (2 ^ 63 - 1) ∧
    ((lfu.run 1 (Call.set "a" (0 : Nat) ::
      List.replicate (2 ^ 63 - 2) (Call.get "a"))).Get "a").2.freq.get "a"
        = some (-(2 ^ 63)) := by
  rw [lfu.run_set_then_gets (2 ^ 63 - 2) (le_refl _)]
  refine ⟨rfl, ?_, ?_⟩
  · simp [GoMap.get]
  · simp [lfu.LFUCache.Get, base.BaseCache.Get, GoMap.get, lfu.incr, GoMap.set, lfu.wrapInt]

/-- C18, amended: in every execution of an LFU cache driven from empty by fewer than
`2 ^ 63 - 1` Set and Get calls, whatever the orders in which `evict` visits the frequency map
during those calls and during the next one, the counter of a key `k` is 1 right after the Set
that inserts it; it grows by exactly 1 on a Set of `k` while `k` is stored and on a Get of `k`
that hits; a Get that misses changes nothing; a Set or a Get of another key after which `k` is
still stored leaves the counter as it is; and the counter of a stored key is 1 plus the number
of its touches since its insertion. -/
theorem lfu_counter_counts_touches {V : Type} (capacity : Int)
    (sched : List (GoMap Int × Call V))
    (hvalid : (lfu.valid capacity sched : Bool) = true)
    (hlen : sched.length < 2 ^ 63 - 1)
    (seen : GoMap Int) (hseen : seen.Perm (lfu.runIn capacity sched : lfu.LFUCache V).freq)
    (k : String) (v : V) :
    (((lfu.runIn capacity sched : lfu.LFUCache V).Get k).1 = none →
      (lfu.stepIn (lfu.runIn capacity sched) seen (Call.set k v)).freq.get k = some 1) ∧
    (((lfu.runIn capacity sched : lfu.LFUCache V).Get k).1.isSome = true →
      ∃ f : Int, (lfu.runIn capacity sched : lfu.LFUCache V).freq.get k = some f ∧
        (lfu.stepIn (lfu.runIn capacity sched) seen (Call.set k v)).freq.get k
          = some (f + 1) ∧
        (lfu.stepIn (lfu.runIn capacity sched : lfu.LFUCache V) seen (Call.get k)).freq.get k
          = some (f + 1)) ∧
    (((lfu.runIn capacity sched : lfu.LFUCache V).Get k).1 = none →
      (lfu.stepIn (lfu.runIn capacity sched : lfu.LFUCache V) seen (Call.get k)).BaseCache
          = (lfu.runIn capacity sched : lfu.LFUCache V).BaseCache ∧
        ∀ x, (lfu.stepIn (lfu.runIn capacity sched : lfu.LFUCache V) seen
            (Call.get k)).freq.get x
          = (lfu.runIn capacity sched : lfu.LFUCache V).freq.get x) ∧
    (∀ (x : String) (w : V), x ≠ k →
      ((lfu.stepIn (lfu.runIn capacity sched) seen (Call.set x w)).Get k).1.isSome = true →
      (lfu.stepIn (lfu.runIn capacity sched) seen (Call.set x w)).freq.get k
        = (lfu.runIn capacity sched : lfu.LFUCache V).freq.get k) ∧
    (∀ x : String, x ≠ k →
      (lfu.stepIn (lfu.runIn capacity sched : lfu.LFUCache V) seen (Call.get x)).freq.get k
        = (lfu.runIn capacity sched : lfu.LFUCache V).freq.get k) ∧
    (((lfu.runIn capacity sched : lfu.LFUCache V).Get k).1.isSome = true →
      (lfu.runIn capacity sched : lfu.LFUCache V).freq.get k
        = some ((1 : Int) + lfu.touchesSince capacity sched k)) := by
  obtain ⟨hnd, hinv⟩ := lfu.counter_eq_touches capacity sched hvalid (by omega)
  have hget : ∀ x, seen.get x = (lfu.runIn capacity sched : lfu.LFUCache V).freq.get x :=
    fun x => GoMap.get_of_perm hnd hseen x
  generalize (lfu.runIn capacity sched : lfu.LFUCache V) = c at hnd hinv hget hseen ⊢
  refine ⟨?_, ?_, ?_, ?_, ?_, ?_⟩
  · intro h
    rw [lfu.LFUCache.Get_fst_lfu] at h
    exact lfu.LFUCache.Set_insert_freq { c with freq := seen } h v
  · intro h
    rw [lfu.LFUCache.Get_fst_lfu] at h
    obtain ⟨hf, hb⟩ := hinv k h
    refine ⟨_, hf, ?_, ?_⟩
    · show (lfu.LFUCache.Set { c with freq := seen } k v).freq.get k = _
      rw [lfu.LFUCache.Set_stored_freq { c with freq := seen } h]
      show some (lfu.wrapInt ((seen.get k).getD 0 + 1)) = _
      rw [hget, hf, Option.getD_some, lfu.wrapInt_of_range (by omega) (by omega)]
    · show (lfu.LFUCache.Get { c with freq := seen } k).2.freq.get k = _
      rw [lfu.LFUCache.Get_hit_freq { c with freq := seen } h]
      show some (lfu.wrapInt ((seen.get k).getD 0 + 1)) = _
      rw [hget, hf, Option.getD_some, lfu.wrapInt_of_range (by omega) (by omega)]
  · intro h
    rw [lfu.LFUCache.Get_fst_lfu] at h
    have hmiss : lfu.stepIn c seen (Call.get k) = { c with freq := seen } :=
      lfu.LFUCache.Get_miss { c with freq := seen } h
    rw [hmiss]
    exact ⟨rfl, hget⟩
  · intro x w hx h
    rw [lfu.LFUCache.Get_fst_lfu] at h
    have := (lfu.LFUCache.Set_other_freq { c with freq := seen } (Ne.symm hx) w h).1
    exact this.trans (hget k)
  · intro x hx
    have := lfu.LFUCache.Get_other_freq { c with freq := seen } (Ne.symm hx)
    exact this.trans (hget k)
  · intro h
    rw [lfu.LFUCache.Get_fst_lfu] at h
    exact (hinv k h).1

/-- Witness of C18 on an execution that the order of the lists does not give: capacity 2,
`Set("a", 1)`, `Set("b", 2)`, then `Set("c", 3)` during which `evict` visits `"b"` before `"a"`
and so evicts `"b"`, then `Get("a")`.  The key `"a"` is still stored, with 1 touch since its
insertion and the counter 2. -/
theorem lfu_counter_counts_touches_witness :
    (lfu.valid 2
      [(([] : GoMap Int), (Call.set "a" 1 : Call Nat)), ([("a", 1)], Call.set "b" 2),
        ([("b", 1), ("a", 1)], Call.set "c" 3), ([("a", 1), ("c", 1)], Call.get "a")] : Bool)
      = true ∧
    [(([] : GoMap Int), (Call.set "a" 1 : Call Nat)), ([("a", 1)], Call.set "b" 2),
      ([("b", 1), ("a", 1)], Call.set "c" 3), ([("a", 1), ("c", 1)], Call.get "a")].length
      < 2 ^ 63 - 1 ∧
    List.Perm [("c", 1), ("a", 2)]
      (lfu.runIn 2
        [(([] : GoMap Int), (Call.set "a" 1 : Call Nat)), ([("a", 1)], Call.set "b" 2),
          ([("b", 1), ("a", 1)], Call.set "c" 3),
          ([("a", 1), ("c", 1)], Call.get "a")]).freq ∧
    (lfu.runIn 2
      [(([] : GoMap Int), (Call.set "a" 1 : Call Nat)), ([("a", 1)], Call.set "b" 2),
        ([("b", 1), ("a", 1)], Call.set "c" 3),
        ([("a", 1), ("c", 1)], Call.get "a")]).BaseCache.Data.keys = ["a", "c"] ∧
    lfu.touchesSince 2
      [(([] : GoMap Int), (Call.set "a" 1 : Call Nat)), ([("a", 1)], Call.set "b" 2),
        ([("b", 1), ("a", 1)], Call.set "c" 3), ([("a", 1), ("c", 1)], Call.get "a")] "a"
      = 1 ∧
    (lfu.runIn 2
      [(([] : GoMap Int), (Call.set "a" 1 : Call Nat)), ([("a", 1)], Call.set "b" 2),
        ([("b", 1), ("a", 1)], Call.set "c" 3),
        ([("a", 1), ("c", 1)], Call.get "a")]).freq.get "a" = some 2 ∧
    (((lfu.runIn 2
      [(([] : GoMap Int), (Call.set "a" 1 : Call Nat)), ([("a", 1)], Call.set "b" 2),
        ([("b", 1), ("a", 1)], Call.set "c" 3),
        ([("a", 1), ("c", 1)], Call.get "a")]).Get "a").1.isSome = true →
      (lfu.runIn 2
        [(([] : GoMap Int), (Call.set "a" 1 : Call Nat)), ([("a", 1)], Call.set "b" 2),
          ([("b", 1), ("a", 1)], Call.set "c" 3),
          ([("a", 1), ("c", 1)], Call.get "a")]).freq.get "a"
        = some ((1 : Int) + lfu.touchesSince 2
            [(([] : GoMap Int), (Call.set "a" 1 : Call Nat)), ([("a", 1)], Call.set "b" 2),
              ([("b", 1), ("a", 1)], Call.set "c" 3),
              ([("a", 1), ("c", 1)], Call.get "a")] "a")) :=
  ⟨by decide, by decide, List.Perm.swap _ _ _, by decide, by decide, by decide,
    (lfu_counter_counts_touches 2
      [(([] : GoMap Int), (Call.set "a" 1 : Call Nat)), ([("a", 1)], Call.set "b" 2),
        ([("b", 1), ("a", 1)], Call.set "c" 3), ([("a", 1), ("c", 1)], Call.get "a")]
      (by decide) (by decide) [("c", 1), ("a", 2)]
      (List.Perm.swap _ _ _) "a" 0).2.2.2.2.2⟩
